import Mathlib

/-!
Shallow embedding of the temporal windowing / dual-rate alignment /
channel-group aggregation core of the kaggle-hms-bilzard repository.

Embedded modules:
* `src/dataset/eeg.py` — `pad_eeg`, `sample_eeg`, the sliding-window datasets
  and `PerEegSubsampleDataset.__getitem__`;
* `src/model/adapter/aggregate.py` — `collate_lr_channels`,
  `WeightedMeanAggregator`, `TilingAggregator`;
* `src/model/eeg_adapter/collate.py` — `dual_stack_eeg_channels`;
* `src/infer_util.py` — the `group_by_eeg` aggregation of `load_metadata`.

2-D `(time, channels)` arrays are lists of rows, 2-D `(freq, time)` images are
lists of rows of rationals, channel axes are lists of such images, and numeric
values are rationals.  Python slicing, truncation to int, `range`, and the
torch random generator are modelled explicitly below.
-/

namespace Hms

/-- Python slice `l[a:b]` for non-negative bounds (clamping at the length). -/
def pySlice (l : List α) (a b : Nat) : List α := (l.take b).drop a

/-- Python slice `l[a:b]` for possibly negative (wrapping) int bounds. -/
def pySliceInt (l : List α) (a b : Int) : List α :=
  let n : Int := l.length
  let norm : Int → Nat := fun i => (if i < 0 then n + i else i).toNat
  pySlice l (norm a) (norm b)

/-- Python `int(q)`: truncation of a rational toward zero. -/
def pyTrunc (q : ℚ) : Int := Int.tdiv q.num q.den

/-- Python `range(0, stop, step)` for `step > 0`, as the list of multiples of
`step` below `stop`. -/
def pyRange (stop step : Int) : List Int :=
  if 0 < step then
    (List.range (((stop + step - 1) / step).toNat)).map (fun k : Nat => (k : Int) * step)
  else []

/-- The least multiple of `m` that is `≥ L` (the target length of
multiple-of padding). -/
def nextMultiple (L m : Nat) : Nat := ((L + m - 1) / m) * m

/-- Anchor of the padding: where the data sits inside the padded array. -/
inductive PaddingType | left | right | center
deriving DecidableEq

/-- Fill strategy of the padding. -/
inductive FillMode | reflect | constant
deriving DecidableEq

/-- numpy reflect index: the source index supplying the padded element at
(right-side) position `pos ≥ L`, reflecting without repeating the edge, with
period `2L - 2`; a length-1 array replicates its only element. -/
def reflectIndex (L pos : Nat) : Nat :=
  if L ≤ 1 then 0
  else
    let p := 2 * L - 2
    let r := pos % p
    if r < L then r else p - r

/-- How much padding goes before the data for a total pad of `pad`. -/
def padBeforeAmount (pad : Nat) : PaddingType → Nat
  | .right => 0
  | .left => pad
  | .center => pad / 2

/-- Modelled from the spec: `pad_multiple_of` (defined in `src/array_util.py`,
which is not among the provided sources) pads axis 0 of an array up to the
next multiple of `multiple`; the anchor `padding_type` puts all padding after
the data (`right`), before it (`left`), or splits it as evenly as possible
with the odd remainder after (`center`); `mode` selects reflect fill (rows
mirrored from the data) or constant fill with `constantValue`. -/
def pad_multiple_of (x : List α) (multiple : Nat) (padding_type : PaddingType)
    (mode : FillMode) (constantValue : α) : List α :=
  let L := x.length
  let pad := nextMultiple L multiple - L
  let padBefore := padBeforeAmount pad padding_type
  let padAfter := pad - padBefore
  let leftFill := (List.range padBefore).map (fun i =>
    match mode with
    | .constant => constantValue
    | .reflect => x.getD (reflectIndex L (padBefore - i)) constantValue)
  let rightFill := (List.range padAfter).map (fun j =>
    match mode with
    | .constant => constantValue
    | .reflect => x.getD (reflectIndex L (L + j)) constantValue)
  leftFill ++ x ++ rightFill

/-- `pad_eeg` (src/dataset/eeg.py, lines 15-33): reflect-pad the signal rows
and constant-zero-pad the quality rows up to a multiple of `duration` along
the time axis, with the same anchor for both. -/
def pad_eeg (eeg cqf : List (List ℚ)) (duration : Nat) (padding_type : PaddingType) :
    List (List ℚ) × List (List ℚ) :=
  (pad_multiple_of eeg duration padding_type .reflect
      (List.replicate (eeg.headD []).length 0),
   pad_multiple_of cqf duration padding_type .constant
      (List.replicate (cqf.headD []).length 0))

/-- State of a `torch.Generator`: the seed it was last seeded with and the
number of draws consumed since.  The pseudo-random stream itself is abstracted
as a function `prng : seed → draw counter → raw draw`. -/
structure Gen where
  seed : Nat
  counter : Nat
deriving DecidableEq

/-- `generator.manual_seed(seed)`: deterministic state, no draws consumed. -/
def manualSeed (seed : Nat) : Gen := ⟨seed, 0⟩

/-- `torch.randint(n, (1,), generator=g).item()`: one draw in `[0, n)`,
consuming one unit of generator state. -/
def torchRandint (prng : Nat → Nat → Nat) (n : Nat) (g : Gen) : Nat × Gen :=
  (prng g.seed g.counter % n, ⟨g.seed, g.counter + 1⟩)

/-- A sequence of `randint` calls with bounds `ns`, threading the generator. -/
def runRandints (prng : Nat → Nat → Nat) (ns : List Nat) (g : Gen) : List Nat × Gen :=
  match ns with
  | [] => ([], g)
  | n :: rest =>
    let (v, g1) := torchRandint prng n g
    let (vs, g2) := runRandints prng rest g1
    (v :: vs, g2)

/-- The generator-owning state of `HmsBaseDataset`: the constructor-supplied
seed and the current torch generator. -/
structure HmsBaseDatasetState where
  seed : Nat
  generator : Gen
deriving DecidableEq

/-- `HmsBaseDataset.reset` (src/dataset/eeg.py, lines 134-136): re-seed the
dataset's generator to the stored caller-given seed. -/
def HmsBaseDatasetState.reset (d : HmsBaseDatasetState) : HmsBaseDatasetState :=
  { d with generator := manualSeed d.seed }

/-- `sample_eeg` (src/dataset/eeg.py, lines 36-74): draw `numSamples` windows
of length `duration` from co-indexed signal and quality arrays.  A record
shorter than `duration` is padded whole (no draw consumed); otherwise a start
frame is drawn by `torch.randint(num_frames - duration + 1)` and the window
`[start, start + duration)` is sliced from both arrays. -/
def sample_eeg (prng : Nat → Nat → Nat) (eeg mask : List (List ℚ)) (duration : Nat)
    (padding_type : PaddingType) (numSamples : Nat) (g : Gen) :
    (List (List (List ℚ)) × List (List (List ℚ))) × Gen :=
  match numSamples with
  | 0 => (([], []), g)
  | n + 1 =>
    let numFrames := eeg.length
    let (pair, g1) :=
      if numFrames < duration then
        (pad_eeg eeg mask duration padding_type, g)
      else
        let (startFrame, g2) := torchRandint prng (numFrames - duration + 1) g
        ((pySlice eeg startFrame (startFrame + duration),
          pySlice mask startFrame (startFrame + duration)), g2)
    let rest := sample_eeg prng eeg mask duration padding_type n g1
    ((pair.1 :: rest.1.1, pair.2 :: rest.1.2), rest.2)

/-- One record's `(start_frame, end_frame)` list in
`SlidingWindowEegDataset._generate_chunks` (src/dataset/eeg.py, lines 240-242):
`range(0, num_frames - duration + 1, stride)` paired with `start + duration`. -/
def slidingWindows (numFrames duration stride : Nat) : List (Nat × Nat) :=
  (pyRange ((numFrames : Int) - duration + 1) stride).map
    (fun s => (s.toNat, s.toNat + duration))

/-- `SlidingWindowEegDataset._generate_chunks` (src/dataset/eeg.py, lines
235-244) over a table of record ids and their raw (unpadded) frame counts. -/
def generate_chunks (eegLens : List (Nat × Nat)) (duration stride : Nat) :
    List (Nat × Nat × Nat) :=
  eegLens.flatMap (fun rec =>
    (slidingWindows rec.2 duration stride).map (fun se => (rec.1, se.1, se.2)))

/-- `SlidingWindowPerEegDataset.__getitem__` (src/dataset/eeg.py, lines
176-194): pad the whole record first, then slice every stride window of the
padded arrays. -/
def perEegSlidingItem (eeg cqf : List (List ℚ)) (duration stride : Nat)
    (padding_type : PaddingType) : List (List (List ℚ)) × List (List (List ℚ)) :=
  let padded := pad_eeg eeg cqf duration padding_type
  let numFrames := padded.1.length
  ((slidingWindows numFrames duration stride).map (fun se => pySlice padded.1 se.1 se.2),
   (slidingWindows numFrames duration stride).map (fun se => pySlice padded.2 se.1 se.2))

/-- `SlidingWindowEegDataset.__getitem__` (src/dataset/eeg.py, lines 249-256):
slice the chunk `[start, end)` from both co-indexed arrays, then pad both. -/
def slidingGetItem (eeg cqf : List (List ℚ)) (startFrame endFrame duration : Nat)
    (padding_type : PaddingType) : List (List ℚ) × List (List ℚ) :=
  pad_eeg (pySlice eeg startFrame endFrame) (pySlice cqf startFrame endFrame)
    duration padding_type

/-- The spectrogram start frame of `PerEegSubsampleDataset.__getitem__`
(src/dataset/eeg.py, line 566): `int(offset_seconds * sampling_rate)`. -/
def specStartFrame (offsetSec samplingRate : ℚ) : Int :=
  pyTrunc (offsetSec * samplingRate)

/-- The spectrogram window width in frames (src/dataset/eeg.py, line 569):
`int(duration_sec * sampling_rate)`. -/
def specWidthFrames (durationSec samplingRate : ℚ) : Int :=
  pyTrunc (durationSec * samplingRate)

/-- The symmetric crop split (src/dataset/eeg.py, lines 578-579):
`crop_left = crop_frames // 2`, `crop_right = crop_frames - crop_left`. -/
def cropSplit (cropFrames : Int) : Int × Int :=
  (cropFrames / 2, cropFrames - cropFrames / 2)

/-- The spectrogram path of `PerEegSubsampleDataset.__getitem__`
(src/dataset/eeg.py, lines 561-583), along the time axis of one
`(freq, time)` plane: slice `[start : start + width]`, then, if the width
exceeds `spec_cropped_duration`, crop `[crop_left : -crop_right]` and assert
the result has exactly `spec_cropped_duration` frames (`none` = the
`AssertionError`). -/
def specAlignCrop (spec : List α) (offsetSec samplingRate durationSec : ℚ)
    (specCroppedDuration : Nat) : Option (List α) :=
  let startFrame : Int := specStartFrame offsetSec samplingRate
  let endFrame : Int := startFrame + specWidthFrames durationSec samplingRate
  let bgSpec := pySliceInt spec startFrame endFrame
  let cropFrames : Int := endFrame - startFrame - specCroppedDuration
  if 0 < cropFrames then
    let cl := (cropSplit cropFrames).1
    let cr := (cropSplit cropFrames).2
    let cropped := pySliceInt bgSpec cl (-cr)
    if cropped.length = specCroppedDuration then some cropped else none
  else some bgSpec

/-! ### Channel-group aggregation (src/model/adapter/aggregate.py) -/

/-- A single `(freq, time)` or `(height, width)` plane. -/
abbrev Mat : Type := List (List ℚ)

/-- Entry `m[i][j]`, defaulting to 0 out of range. -/
def matEnt (m : Mat) (i j : Nat) : ℚ := ((m.getD i []).getD j 0)

/-- Elementwise combination of two planes (torch broadcasting of `*`, `+`,
`/` over equal shapes). -/
def map2Mat (f : ℚ → ℚ → ℚ) (a b : Mat) : Mat :=
  List.zipWith (List.zipWith f) a b

/-- The all-zero plane of the given shape. -/
def zerosMat (h w : Nat) : Mat := List.replicate h (List.replicate w 0)

/-- `tensor.sum(dim=channel)` over a list of equally shaped planes. -/
def sumMats (h w : Nat) (ms : List Mat) : Mat :=
  ms.foldr (map2Mat (· + ·)) (zerosMat h w)

/-- `ranges = [0, 4, 8, 10, 14, 18]` (src/model/adapter/aggregate.py,
lines 50 and 89). -/
def aggRanges : List Nat := [0, 4, 8, 10, 14, 18]

/-- The `(start, end)` pairs actually iterated:
`zip(range(C), zip(ranges[:-1], ranges[1:]))` truncates at `min C 5`. -/
def aggGroups (C : Nat) : List (Nat × Nat) :=
  ((List.range C).zip (aggRanges.zip aggRanges.tail)).map Prod.snd

/-- Channel slice `x[:, start:end]` of a channel list. -/
def chanSlice (x : List Mat) (s e : Nat) : List Mat := (x.take e).drop s

/-- `WeightedMeanAggregator.forward` (src/model/adapter/aggregate.py, lines
32-64) on one batch entry: per channel group, the mask-weighted channel sum
divided by the mask sum plus `eps`, and the mask sum itself. -/
def weightedMeanEntry (eps : ℚ) (spec mask : List Mat) : List Mat × List Mat :=
  let C := spec.length
  let h := (spec.headD []).length
  let w := ((spec.headD []).headD []).length
  let outs := (aggGroups C).map (fun se =>
    let sumSpec := sumMats h w
      (List.zipWith (map2Mat (· * ·)) (chanSlice spec se.1 se.2) (chanSlice mask se.1 se.2))
    let sumMask := sumMats h w (chanSlice mask se.1 se.2)
    (map2Mat (fun a b => a / (b + eps)) sumSpec sumMask, sumMask))
  (outs.map Prod.fst, outs.map Prod.snd)

/-- `WeightedMeanAggregator.forward` over a batch (the torch ops act
independently on each batch entry). -/
def weightedMeanForward (eps : ℚ) (spec mask : List (List Mat)) :
    List (List Mat) × List (List Mat) :=
  (List.zipWith (fun s m => (weightedMeanEntry eps s m).1) spec mask,
   List.zipWith (fun s m => (weightedMeanEntry eps s m).2) spec mask)

/-- `TilingAggregator.forward` (src/model/adapter/aggregate.py, lines 76-110)
on one batch entry: per channel group, stack the group's planes along the
frequency axis (`rearrange "b c f t -> b (c f) t"` = concatenation of the
rows) and zero-pad the bottom by `F * (4 - group_size)` rows of width `T`;
the (already broadcast) mask is tiled the same way. -/
def tilingEntry (spec mask : List Mat) : List Mat × List Mat :=
  let C := spec.length
  let F := (spec.headD []).length
  let T := ((spec.headD []).headD []).length
  let outs := (aggGroups C).map (fun se =>
    let ch := se.2 - se.1
    let padSize := F * (4 - ch)
    let tile := (chanSlice spec se.1 se.2).flatten ++
      List.replicate padSize (List.replicate T 0)
    let tileMask := (chanSlice mask se.1 se.2).flatten ++
      List.replicate padSize (List.replicate T 0)
    (tile, tileMask))
  (outs.map Prod.fst, outs.map Prod.snd)

/-- numpy/torch fancy indexing `x[idx_list]` along the first axis. -/
def fancyIndex (r : List α) (idx : List Nat) : List α :=
  idx.filterMap (fun i => r[i]?)

/-- `collate_lr_channels` (src/model/adapter/aggregate.py, lines 7-29): assert
5 channel groups, then stack the left triple `spec[:, [0,1,2]]` and the right
triple `spec[:, [4,3,2]]` along the batch axis, for spec and mask alike
(`none` = the failed `assert spec.shape[1] == 5`). -/
def collate_lr_channels (spec mask : List (List α)) :
    Option (List (List α) × List (List α)) :=
  if spec.all (fun entry => entry.length == 5) then
    some (spec.map (fun e => fancyIndex e [0, 1, 2]) ++
            spec.map (fun e => fancyIndex e [4, 3, 2]),
          mask.map (fun e => fancyIndex e [0, 1, 2]) ++
            mask.map (fun e => fancyIndex e [4, 3, 2]))
  else none

/-- `dual_stack_eeg_channels` (src/model/eeg_adapter/collate.py, lines 7-31):
per batch entry, left = `cat(x[:,0:4], x[:,4:8])` (`++ x[:,8:10]` unless
`drop_z`), right = `cat(x[:,14:18], x[:,10:14])` (`++ x[:,8:10]`), stacked on
a new leading axis. -/
def dual_stack_eeg_channels (x : List (List α)) (dropZ : Bool) : List (List (List α)) :=
  let left := x.map (fun r =>
    (pySlice r 0 4 ++ pySlice r 4 8) ++ (if dropZ then [] else pySlice r 8 10))
  let right := x.map (fun r =>
    (pySlice r 14 18 ++ pySlice r 10 14) ++ (if dropZ then [] else pySlice r 8 10))
  [left, right]

/-- `EegDualStackingCollator.forward` (src/model/eeg_adapter/collate.py, lines
34-49): dual stack, then `rearrange "d b c t -> (d b) c t"` — the left batch
followed by the right batch. -/
def eegDualStackingCollator (x : List (List α)) (dropZ : Bool) : List (List α) :=
  (dual_stack_eeg_channels x dropZ).flatten

/-! ### Label/weight combination (src/infer_util.py, lines 36-56) -/

/-- One labeled interval's vote weight and class-probability vector. -/
structure LabelRow where
  weight : ℚ
  probs : List ℚ
deriving DecidableEq

/-- The `group_by_eeg` aggregation of `load_metadata` (src/infer_util.py,
lines 36-56) applied to the label rows of one `eeg_id` group: each probability
column is first multiplied by the row weight, the scaled columns are summed,
the `weight` output column is the group mean of the weights, `weight_sum`
their sum, and the summed probabilities are divided by `weight_sum`. -/
def aggregateRows (rows : List LabelRow) : List ℚ × ℚ × ℚ :=
  let scaled := rows.map (fun r => r.probs.map (fun p => p * r.weight))
  let probSums := scaled.foldr (List.zipWith (· + ·)) (List.replicate 6 0)
  let weightMean := (rows.map LabelRow.weight).sum / rows.length
  let weightSum := (rows.map LabelRow.weight).sum
  (probSums.map (fun p => p / weightSum), weightMean, weightSum)

/-- Which aggregated weight column a dataset's `weight_key` selects. -/
inductive WeightMode | mean | sum
deriving DecidableEq

/-- The combined weight handed to a sample, as selected by configuration. -/
def selectCombinedWeight (mode : WeightMode) (rows : List LabelRow) : ℚ :=
  match mode with
  | .mean => (aggregateRows rows).2.1
  | .sum => (aggregateRows rows).2.2

/-- The eeg-window slicing of `PerEegSubsampleDataset.__getitem__`
(src/dataset/eeg.py, lines 542-554): frame window derived from the drawn
row's offset, sliced identically from signal and quality arrays, then both
padded. -/
def perEegSubsampleWindow (eeg cqf : List (List ℚ)) (offsetSec samplingRate durationSec : ℚ)
    (duration : Nat) (padding_type : PaddingType) : List (List ℚ) × List (List ℚ) :=
  let startFrame : Int := pyTrunc (offsetSec * samplingRate)
  let endFrame : Int := startFrame + pyTrunc (durationSec * samplingRate)
  pad_eeg (pySliceInt eeg startFrame endFrame) (pySliceInt cqf startFrame endFrame)
    duration padding_type

/-! ### Arithmetic and list helper lemmas -/

theorem le_nextMultiple (L : Nat) {m : Nat} (hm : 0 < m) : L ≤ nextMultiple L m := by
  unfold nextMultiple
  rcases Nat.eq_zero_or_pos L with h0 | h0
  · simp [h0]
  · have h1 : L + m - 1 = (L - 1) + m := by omega
    rw [h1, Nat.add_div_right _ hm]
    have h2 := Nat.mod_lt (L - 1) hm
    have h3 := Nat.div_add_mod (L - 1) m
    have h4 : ((L - 1) / m + 1) * m = m * ((L - 1) / m) + m := by ring
    rw [h4]
    generalize m * ((L - 1) / m) = t at h3 ⊢
    omega

theorem nextMultiple_eq_of_le {L m : Nat} (h0 : 0 < L) (hle : L ≤ m) :
    nextMultiple L m = m := by
  unfold nextMultiple
  have hm : 0 < m := lt_of_lt_of_le h0 hle
  have h1 : L + m - 1 = (L - 1) + m := by omega
  rw [h1, Nat.add_div_right _ hm, Nat.div_eq_of_lt (by omega)]
  simp

theorem pad_multiple_of_length (x : List α) (m : Nat) (pt : PaddingType)
    (mode : FillMode) (cv : α) :
    (pad_multiple_of x m pt mode cv).length
      = x.length + (nextMultiple x.length m - x.length) := by
  unfold pad_multiple_of
  cases pt <;> simp [padBeforeAmount] <;> omega

theorem pad_multiple_of_length_of_pos (x : List α) {m : Nat} (hm : 0 < m)
    (pt : PaddingType) (mode : FillMode) (cv : α) :
    (pad_multiple_of x m pt mode cv).length = nextMultiple x.length m := by
  rw [pad_multiple_of_length]
  have := le_nextMultiple x.length hm
  omega

theorem pyRange_count {stop step : Int} (hs : 0 < step) :
    pyRange stop step
      = (List.range (((stop - 1) / step + 1).toNat)).map (fun k : Nat => (k : Int) * step) := by
  unfold pyRange
  rw [if_pos hs]
  have h1 : stop + step - 1 = (stop - 1) + 1 * step := by ring
  rw [h1, Int.add_mul_ediv_right _ _ (by omega)]

theorem mem_pyRange {stop step : Int} (hs : 0 < step) {x : Int} :
    x ∈ pyRange stop step ↔ ∃ k : Nat, x = (k : Int) * step ∧ x < stop := by
  rw [pyRange_count hs]
  simp only [List.mem_map, List.mem_range]
  constructor
  · rintro ⟨k, hk, rfl⟩
    refine ⟨k, rfl, ?_⟩
    have h1 : (k : Int) < (stop - 1) / step + 1 := Int.lt_toNat.mp hk
    have h2 : (k : Int) ≤ (stop - 1) / step := by omega
    have h3 := (Int.le_ediv_iff_mul_le hs).mp h2
    omega
  · rintro ⟨k, rfl, hlt⟩
    refine ⟨k, ?_, rfl⟩
    have h2 : (k : Int) * step ≤ stop - 1 := by omega
    have h3 := (Int.le_ediv_iff_mul_le hs).mpr h2
    exact Int.lt_toNat.mpr (by omega)

theorem pyRange_eq_nil {stop step : Int} (h : stop ≤ 0) : pyRange stop step = [] := by
  by_cases hs : 0 < step
  · rw [pyRange_count hs]
    have h1 : (stop - 1) / step < 0 := Int.ediv_neg' (by omega) hs
    have h2 : ((stop - 1) / step + 1).toNat = 0 := by omega
    rw [h2]
    rfl
  · unfold pyRange
    rw [if_neg hs]

theorem pyRange_pairwise {stop step : Int} (hs : 0 < step) :
    List.Pairwise (· < ·) (pyRange stop step) := by
  rw [pyRange_count hs, List.pairwise_map]
  apply List.Pairwise.imp ?_ (List.pairwise_lt_range _)
  intro a b hab
  exact mul_lt_mul_of_pos_right (by exact_mod_cast hab) hs

theorem pyRange_nonneg {stop step : Int} {x : Int} (hx : x ∈ pyRange stop step) :
    0 ≤ x := by
  unfold pyRange at hx
  split at hx
  · obtain ⟨k, -, rfl⟩ := List.mem_map.mp hx
    rename_i hstep
    positivity
  · simp at hx

theorem mem_slidingWindows {L d stride : Nat} (hs : 0 < stride) {p : Nat × Nat} :
    p ∈ slidingWindows L d stride ↔
      (∃ k : Nat, p.1 = k * stride) ∧ p.2 = p.1 + d ∧ p.1 + d ≤ L := by
  obtain ⟨p1, p2⟩ := p
  unfold slidingWindows
  rw [List.mem_map]
  have hs2 : (0 : Int) < (stride : Int) := by exact_mod_cast hs
  constructor
  · rintro ⟨s, hmem, hps⟩
    obtain ⟨k, rfl, hlt⟩ := (mem_pyRange hs2).mp hmem
    have hcast : ((k * stride : Nat) : Int) = (k : Int) * (stride : Int) := by
      push_cast
      ring
    simp only [Prod.mk.injEq] at hps
    obtain ⟨hp1, hp2⟩ := hps
    exact ⟨⟨k, by omega⟩, by omega, by omega⟩
  · rintro ⟨⟨k, hk⟩, hp2, hle⟩
    dsimp only at hk hp2 hle
    have hcast : ((k * stride : Nat) : Int) = (k : Int) * (stride : Int) := by
      push_cast
      ring
    refine ⟨(k : Int) * stride, ?_, ?_⟩
    · exact (mem_pyRange hs2).mpr ⟨k, rfl, by omega⟩
    · have h1 : ((k : Int) * stride).toNat = p1 := by omega
      simp only [h1]
      simp only [Prod.mk.injEq]
      exact ⟨trivial, hp2.symm⟩

theorem slidingWindows_pairwise {L d stride : Nat} (hs : 0 < stride) :
    List.Pairwise (fun p q : Nat × Nat => p.1 < q.1) (slidingWindows L d stride) := by
  unfold slidingWindows
  rw [List.pairwise_map]
  have hs2 : (0 : Int) < (stride : Int) := by exact_mod_cast hs
  refine (pyRange_pairwise hs2).imp_of_mem ?_
  intro a b ha hb hab
  have h0a := pyRange_nonneg ha
  simpa using by omega

/-! ### C3: exhaustive-mode window enumeration -/

/-- C3: for every signal length, duration and positive stride, the enumerated
window list is exactly the starts `0, stride, 2*stride, …` with
`start + duration ≤ signal_length`, paired with `end = start + duration`, in
ascending start order; it is empty when `signal_length < duration`; and for
`signal_length = 5000, duration = 2048, stride = 2048` it is exactly
`[(0, 2048), (2048, 4096)]`. -/
theorem exhaustive_window_enumeration (L d stride : Nat) (hs : 0 < stride) :
    (∀ p : Nat × Nat, p ∈ slidingWindows L d stride ↔
        ((∃ k : Nat, p.1 = k * stride) ∧ p.2 = p.1 + d ∧ p.1 + d ≤ L)) ∧
    List.Pairwise (fun p q : Nat × Nat => p.1 < q.1) (slidingWindows L d stride) ∧
    (L < d → slidingWindows L d stride = []) ∧
    slidingWindows 5000 2048 2048 = [(0, 2048), (2048, 4096)] := by
  refine ⟨fun p => mem_slidingWindows hs, slidingWindows_pairwise hs, ?_, by decide⟩
  intro hld
  unfold slidingWindows
  rw [pyRange_eq_nil (by omega)]
  rfl

theorem exhaustive_window_enumeration_witness :
    0 < 2048 ∧
    ((∀ p : Nat × Nat, p ∈ slidingWindows 5000 2048 2048 ↔
        ((∃ k : Nat, p.1 = k * 2048) ∧ p.2 = p.1 + 2048 ∧ p.1 + 2048 ≤ 5000)) ∧
     List.Pairwise (fun p q : Nat × Nat => p.1 < q.1) (slidingWindows 5000 2048 2048) ∧
     (5000 < 2048 → slidingWindows 5000 2048 2048 = []) ∧
     slidingWindows 5000 2048 2048 = [(0, 2048), (2048, 4096)]) :=
  ⟨by decide, exhaustive_window_enumeration 5000 2048 2048 (by decide)⟩

/-! ### C4: short records under exhaustive windowing -/

theorem pySlice_zero_of_le {l : List α} {b : Nat} (h : l.length ≤ b) :
    pySlice l 0 b = l := by
  unfold pySlice
  rw [List.take_of_length_le h, List.drop_zero]

theorem slidingWindows_self {d stride : Nat} (hs : 0 < stride) :
    slidingWindows d d stride = [(0, d)] := by
  unfold slidingWindows
  have h1 : ((d : Int) - d + 1) = 1 := by omega
  rw [h1, pyRange_count (by exact_mod_cast hs)]
  norm_num
  simp [List.range_succ]

theorem pad_eeg_fst_length (eeg cqf : List (List ℚ)) {d : Nat} (hd : 0 < d)
    (pt : PaddingType) :
    (pad_eeg eeg cqf d pt).1.length = nextMultiple eeg.length d := by
  unfold pad_eeg
  dsimp only
  exact pad_multiple_of_length_of_pos _ hd _ _ _

theorem pad_eeg_snd_length (eeg cqf : List (List ℚ)) {d : Nat} (hd : 0 < d)
    (pt : PaddingType) :
    (pad_eeg eeg cqf d pt).2.length = nextMultiple cqf.length d := by
  unfold pad_eeg
  dsimp only
  exact pad_multiple_of_length_of_pos _ hd _ _ _

/-- C4 counterexample: a record of 1000 frames with `duration = stride = 2048`
contributes no chunk at all to `SlidingWindowEegDataset`'s chunk list, whereas
the claim demands exactly one padded window per short record. -/
theorem short_record_zero_windows_cex :
    generate_chunks [(42, 1000)] 2048 2048 = [] ∧
    (generate_chunks [(42, 1000)] 2048 2048).length ≠ 1 := by
  decide

/-- C4 (amended): `SlidingWindowPerEegDataset` pads a short nonempty record up
to exactly `duration` first and produces exactly one window, the full padded
record, for signal and mask alike; `SlidingWindowEegDataset._generate_chunks`,
however, enumerates over the unpadded length and produces zero windows for
such a record. -/
theorem short_record_window_policy (eeg cqf : List (List ℚ)) (d stride : Nat)
    (pt : PaddingType) (h0 : 0 < eeg.length) (hlen : cqf.length = eeg.length)
    (hL : eeg.length < d) (hs : 0 < stride) :
    (perEegSlidingItem eeg cqf d stride pt).1 = [(pad_eeg eeg cqf d pt).1] ∧
    (perEegSlidingItem eeg cqf d stride pt).2 = [(pad_eeg eeg cqf d pt).2] ∧
    (pad_eeg eeg cqf d pt).1.length = d ∧
    (pad_eeg eeg cqf d pt).2.length = d ∧
    slidingWindows eeg.length d stride = [] := by
  have hd : 0 < d := by omega
  have hlen1 : (pad_eeg eeg cqf d pt).1.length = d := by
    rw [pad_eeg_fst_length eeg cqf hd pt, nextMultiple_eq_of_le h0 (le_of_lt hL)]
  have hlen2 : (pad_eeg eeg cqf d pt).2.length = d := by
    rw [pad_eeg_snd_length eeg cqf hd pt,
      nextMultiple_eq_of_le (hlen ▸ h0) (hlen ▸ le_of_lt hL)]
  refine ⟨?_, ?_, hlen1, hlen2, ?_⟩
  · show ((slidingWindows (pad_eeg eeg cqf d pt).1.length d stride).map
      (fun se => pySlice (pad_eeg eeg cqf d pt).1 se.1 se.2)) = _
    rw [hlen1, slidingWindows_self hs]
    simp only [List.map_cons, List.map_nil]
    rw [pySlice_zero_of_le (le_of_eq hlen1)]
  · show ((slidingWindows (pad_eeg eeg cqf d pt).1.length d stride).map
      (fun se => pySlice (pad_eeg eeg cqf d pt).2 se.1 se.2)) = _
    rw [hlen1, slidingWindows_self hs]
    simp only [List.map_cons, List.map_nil]
    rw [pySlice_zero_of_le (le_of_eq hlen2)]
  · unfold slidingWindows
    rw [pyRange_eq_nil (by omega)]
    rfl

theorem short_record_window_policy_witness :
    0 < ([[(3 : ℚ)]] : List (List ℚ)).length ∧
    ([[(7 : ℚ)]] : List (List ℚ)).length = ([[(3 : ℚ)]] : List (List ℚ)).length ∧
    ([[(3 : ℚ)]] : List (List ℚ)).length < 2 ∧ 0 < 2 ∧
    ((perEegSlidingItem [[(3 : ℚ)]] [[(7 : ℚ)]] 2 2 .right).1
        = [(pad_eeg [[(3 : ℚ)]] [[(7 : ℚ)]] 2 .right).1] ∧
      (perEegSlidingItem [[(3 : ℚ)]] [[(7 : ℚ)]] 2 2 .right).2
        = [(pad_eeg [[(3 : ℚ)]] [[(7 : ℚ)]] 2 .right).2] ∧
      (pad_eeg [[(3 : ℚ)]] [[(7 : ℚ)]] 2 .right).1.length = 2 ∧
      (pad_eeg [[(3 : ℚ)]] [[(7 : ℚ)]] 2 .right).2.length = 2 ∧
      slidingWindows ([[(3 : ℚ)]] : List (List ℚ)).length 2 2 = []) :=
  ⟨by decide, by decide, by decide, by decide,
   short_record_window_policy [[(3 : ℚ)]] [[(7 : ℚ)]] 2 2 .right
     (by decide) (by decide) (by decide) (by decide)⟩

/-! ### C5: sampling determinism -/

theorem runRandints_eq (prng : Nat → Nat → Nat) (ns : List Nat) (s c : Nat) :
    runRandints prng ns ⟨s, c⟩
      = ((List.range ns.length).map (fun i => prng s (c + i) % ns.getD i 0),
         ⟨s, c + ns.length⟩) := by
  induction ns generalizing c with
  | nil => simp [runRandints]
  | cons n rest ih =>
    simp only [runRandints, torchRandint]
    rw [ih (c + 1), List.length_cons, List.range_succ_eq_map]
    simp only [List.map_cons, List.map_map, Nat.add_zero, List.getD_cons_zero,
      Prod.mk.injEq, List.cons.injEq, Gen.mk.injEq]
    refine ⟨⟨trivial, ?_⟩, trivial, by omega⟩
    apply List.map_congr_left
    intro i _
    have hidx : c + 1 + i = c + (i + 1) := by omega
    simp [Function.comp, hidx, List.getD_cons_succ]

/-- C5: `reset` re-seeds the dataset's generator to the stored caller-given
seed; two dataset states with the same seed, once reset, produce the identical
sequence of draws under the same sequence of sampling calls, and that sequence
is the pure function of the seed and the call bounds given by the abstract
stream. -/
theorem sampling_determinism (prng : Nat → Nat → Nat)
    (d1 d2 : HmsBaseDatasetState) (ns : List Nat) (h : d1.seed = d2.seed) :
    d1.reset.generator = manualSeed d1.seed ∧
    (runRandints prng ns d1.reset.generator).1
      = (runRandints prng ns d2.reset.generator).1 ∧
    (runRandints prng ns d1.reset.generator).1
      = (List.range ns.length).map (fun i => prng d1.seed i % ns.getD i 0) := by
  have h1 : d1.reset.generator = manualSeed d1.seed := rfl
  have h2 : d2.reset.generator = manualSeed d2.seed := rfl
  refine ⟨h1, ?_, ?_⟩
  · rw [h1, h2, ← h]
  · rw [h1]
    show (runRandints prng ns ⟨d1.seed, 0⟩).1 = _
    rw [runRandints_eq]
    simp

theorem sampling_determinism_witness :
    (⟨42, ⟨42, 3⟩⟩ : HmsBaseDatasetState).seed
      = (⟨42, ⟨17, 9⟩⟩ : HmsBaseDatasetState).seed ∧
    ((⟨42, ⟨42, 3⟩⟩ : HmsBaseDatasetState).reset.generator = manualSeed 42 ∧
     (runRandints (fun s c => s + c) [5, 5, 5]
         (⟨42, ⟨42, 3⟩⟩ : HmsBaseDatasetState).reset.generator).1
       = (runRandints (fun s c => s + c) [5, 5, 5]
           (⟨42, ⟨17, 9⟩⟩ : HmsBaseDatasetState).reset.generator).1 ∧
     (runRandints (fun s c => s + c) [5, 5, 5]
         (⟨42, ⟨42, 3⟩⟩ : HmsBaseDatasetState).reset.generator).1
       = (List.range ([5, 5, 5] : List Nat).length).map
           (fun i => (42 + i) % ([5, 5, 5] : List Nat).getD i 0)) :=
  ⟨rfl, sampling_determinism (fun s c => s + c) ⟨42, ⟨42, 3⟩⟩ ⟨42, ⟨17, 9⟩⟩ [5, 5, 5] rfl⟩

/-! ### C1: dual-rate alignment -/

theorem pyTrunc_eq_floor {q : ℚ} (hq : 0 ≤ q) : pyTrunc q = ⌊q⌋ := by
  unfold pyTrunc
  rw [Int.tdiv_eq_ediv (by exact_mod_cast Rat.num_nonneg.mpr hq) (by positivity)]
  exact Rat.floor_def.symm

set_option maxRecDepth 20000 in
/-- C1: dual-rate alignment: for a non-negative offset (and non-negative rate
and duration) the spectrogram crop start frame is `⌊offset_seconds * rate⌋`
(floor semantics), the end frame is `start + ⌊spec_duration_sec * rate⌋`; an
excess width is split as `left = excess // 2`, `right = excess - left`, the
right side at most one larger (odd excess); whenever the crop branch returns
at all, the returned width is exactly `spec_cropped_duration` (otherwise the
assertion fires); and at offset 10 s, rate 0.5 Hz, duration 600 s,
`crop_to = 256` the raw width is 300, the split is 22/22, and the final width
is exactly 256. -/
theorem dual_rate_alignment (spec : List α) (offsetSec rate durSec : ℚ) (cropTo : Nat)
    (hOff : 0 ≤ offsetSec) (hRate : 0 ≤ rate) (hDur : 0 ≤ durSec) :
    (specStartFrame offsetSec rate = ⌊offsetSec * rate⌋ ∧
     specStartFrame offsetSec rate + specWidthFrames durSec rate
        = ⌊offsetSec * rate⌋ + ⌊durSec * rate⌋) ∧
    (∀ excess : Int, 0 < excess →
      (cropSplit excess).1 = excess / 2 ∧
      (cropSplit excess).2 = excess - excess / 2 ∧
      (cropSplit excess).1 + (cropSplit excess).2 = excess ∧
      (cropSplit excess).1 ≤ (cropSplit excess).2 ∧
      (cropSplit excess).2 ≤ (cropSplit excess).1 + 1) ∧
    (∀ l, specAlignCrop spec offsetSec rate durSec cropTo = some l →
        (cropTo : Int) < specWidthFrames durSec rate → l.length = cropTo) ∧
    (specStartFrame 10 (1 / 2) = 5 ∧ specWidthFrames 600 (1 / 2) = 300 ∧
     cropSplit (300 - 256) = (22, 22) ∧
     (specAlignCrop (List.range 310) 10 (1 / 2) 600 256).map List.length
        = some 256) := by
  have hfloor : specStartFrame offsetSec rate = ⌊offsetSec * rate⌋ :=
    pyTrunc_eq_floor (mul_nonneg hOff hRate)
  have hwidth : specWidthFrames durSec rate = ⌊durSec * rate⌋ :=
    pyTrunc_eq_floor (mul_nonneg hDur hRate)
  have h10 : specStartFrame 10 (1 / 2) = 5 := by
    have h : (10 : ℚ) * (1 / 2) = 5 := by norm_num
    rw [specStartFrame, h]
    decide
  have h600 : specWidthFrames 600 (1 / 2) = 300 := by
    have h : (600 : ℚ) * (1 / 2) = 300 := by norm_num
    rw [specWidthFrames, h]
    decide
  refine ⟨⟨hfloor, by rw [hfloor, hwidth]⟩, ?_, ?_, h10, h600, by decide, ?_⟩
  · intro excess hex
    unfold cropSplit
    exact ⟨rfl, rfl, by omega, by omega, by omega⟩
  · intro l hl hlt
    simp only [specAlignCrop] at hl
    split at hl
    · split at hl
      · rename_i hlen
        cases hl
        exact hlen
      · cases hl
    · rename_i hneg
      exfalso
      omega
  · simp only [specAlignCrop, h10, h600]
    decide

theorem dual_rate_alignment_witness :
    0 ≤ (10 : ℚ) ∧ 0 ≤ (1 / 2 : ℚ) ∧ 0 ≤ (600 : ℚ) ∧
    ((specStartFrame 10 (1 / 2) = ⌊(10 : ℚ) * (1 / 2)⌋ ∧
      specStartFrame 10 (1 / 2) + specWidthFrames 600 (1 / 2)
        = ⌊(10 : ℚ) * (1 / 2)⌋ + ⌊(600 : ℚ) * (1 / 2)⌋) ∧
     (∀ excess : Int, 0 < excess →
       (cropSplit excess).1 = excess / 2 ∧
       (cropSplit excess).2 = excess - excess / 2 ∧
       (cropSplit excess).1 + (cropSplit excess).2 = excess ∧
       (cropSplit excess).1 ≤ (cropSplit excess).2 ∧
       (cropSplit excess).2 ≤ (cropSplit excess).1 + 1) ∧
     (∀ l, specAlignCrop (List.range 310) 10 (1 / 2) 600 256 = some l →
         (256 : Int) < specWidthFrames 600 (1 / 2) → l.length = 256) ∧
     (specStartFrame 10 (1 / 2) = 5 ∧ specWidthFrames 600 (1 / 2) = 300 ∧
      cropSplit (300 - 256) = (22, 22) ∧
      (specAlignCrop (List.range 310) 10 (1 / 2) 600 256).map List.length
         = some 256)) :=
  ⟨by decide, one_half_pos.le, by decide,
   dual_rate_alignment (List.range 310) 10 (1 / 2) 600 256
     (by decide) one_half_pos.le (by decide)⟩

/-! ### C2: random-mode window sampling -/

theorem headD_mem {l : List α} (h : l ≠ []) (d : α) : l.headD d ∈ l := by
  cases l with
  | nil => exact absurd rfl h
  | cons a t => exact List.mem_cons_self a t

theorem pySlice_length (l : List α) (a b : Nat) :
    (pySlice l a b).length = min b l.length - a := by
  unfold pySlice
  simp [List.length_drop, List.length_take]

theorem mem_of_mem_pySlice {l : List α} {a b : Nat} {r : α}
    (hr : r ∈ pySlice l a b) : r ∈ l :=
  List.mem_of_mem_take (List.mem_of_mem_drop hr)

theorem mem_pad_multiple_of {x : List α} {m : Nat} {pt : PaddingType}
    {mode : FillMode} {cv : α} {r : α}
    (hr : r ∈ pad_multiple_of x m pt mode cv) : r ∈ x ∨ r = cv := by
  unfold pad_multiple_of at hr
  simp only [List.mem_append, List.mem_map, List.mem_range] at hr
  rcases hr with (⟨i, -, heq⟩ | hx) | ⟨j, -, heq⟩
  · cases mode with
    | constant => exact Or.inr heq.symm
    | reflect =>
      by_cases hi : reflectIndex x.length (padBeforeAmount
          (nextMultiple x.length m - x.length) pt - i) < x.length
      · left
        rw [← heq, List.getD_eq_getElem _ _ hi]
        exact List.getElem_mem hi
      · right
        rw [← heq, List.getD_eq_default _ _ (by omega)]
  · exact Or.inl hx
  · cases mode with
    | constant => exact Or.inr heq.symm
    | reflect =>
      by_cases hi : reflectIndex x.length (x.length + j) < x.length
      · left
        rw [← heq, List.getD_eq_getElem _ _ hi]
        exact List.getElem_mem hi
      · right
        rw [← heq, List.getD_eq_default _ _ (by omega)]

theorem pad_multiple_of_right (x : List α) (m : Nat) (mode : FillMode) (cv : α) :
    pad_multiple_of x m .right mode cv
      = x ++ (List.range (nextMultiple x.length m - x.length)).map (fun j =>
          match mode with
          | .constant => cv
          | .reflect => x.getD (reflectIndex x.length (x.length + j)) cv) := by
  unfold pad_multiple_of
  simp [padBeforeAmount]

theorem sample_eeg_pad (prng : Nat → Nat → Nat) (eeg mask : List (List ℚ))
    (d : Nat) (pt : PaddingType) (k : Nat) (g : Gen) (h : eeg.length < d) :
    sample_eeg prng eeg mask d pt k g
      = ((List.replicate k (pad_eeg eeg mask d pt).1,
          List.replicate k (pad_eeg eeg mask d pt).2), g) := by
  induction k with
  | zero => simp [sample_eeg]
  | succ n ih => simp [sample_eeg, if_pos h, ih, List.replicate_succ]

theorem sample_eeg_slice (prng : Nat → Nat → Nat) (eeg mask : List (List ℚ))
    (d : Nat) (pt : PaddingType) (k s c : Nat) (h : ¬ eeg.length < d) :
    sample_eeg prng eeg mask d pt k ⟨s, c⟩
      = (((List.range k).map (fun j =>
            pySlice eeg (prng s (c + j) % (eeg.length - d + 1))
              (prng s (c + j) % (eeg.length - d + 1) + d)),
          (List.range k).map (fun j =>
            pySlice mask (prng s (c + j) % (eeg.length - d + 1))
              (prng s (c + j) % (eeg.length - d + 1) + d))), ⟨s, c + k⟩) := by
  induction k generalizing c with
  | zero => simp [sample_eeg]
  | succ n ih =>
    simp only [sample_eeg, torchRandint, if_neg h]
    rw [ih (c + 1)]
    dsimp only
    rw [List.range_succ_eq_map]
    simp only [List.map_cons, List.map_map, Nat.add_zero, Prod.mk.injEq,
      List.cons.injEq, Gen.mk.injEq]
    have hmap : ∀ arr : List (List ℚ),
        (List.range n).map (fun j =>
            pySlice arr (prng s (c + 1 + j) % (eeg.length - d + 1))
              (prng s (c + 1 + j) % (eeg.length - d + 1) + d))
          = (List.range n).map ((fun j =>
              pySlice arr (prng s (c + j) % (eeg.length - d + 1))
                (prng s (c + j) % (eeg.length - d + 1) + d)) ∘ Nat.succ) := by
      intro arr
      apply List.map_congr_left
      intro i _
      have hidx : c + 1 + i = c + (i + 1) := by omega
      simp [Function.comp, hidx]
    exact ⟨⟨⟨trivial, hmap eeg⟩, trivial, hmap mask⟩, trivial, by omega⟩

set_option maxRecDepth 4000 in
/-- C2: random-mode window sampling: when the record is shorter than the
requested duration, every one of the `k` draws returns the whole padded
record (offset 0) of length exactly `duration` (for the default right anchor
the data is the prefix and the mask's padded tail is all-zero rows);
otherwise each draw consumes the generator sequentially and picks a start
offset in the inclusive range `[0, L - duration]`, returning the contiguous
slice `[start, start + duration)` of signal and mask; the stacked output
consists of `k` windows of `duration` rows of `C` channels each. -/
theorem random_window_sampling (prng : Nat → Nat → Nat) (eeg mask : List (List ℚ))
    (d C k : Nat) (pt : PaddingType) (s c : Nat)
    (h0 : 0 < eeg.length) (hm : mask.length = eeg.length)
    (hwe : ∀ r ∈ eeg, r.length = C) (hwm : ∀ r ∈ mask, r.length = C) :
    (eeg.length < d →
       (sample_eeg prng eeg mask d pt k ⟨s, c⟩).1.1
          = List.replicate k (pad_eeg eeg mask d pt).1 ∧
       (sample_eeg prng eeg mask d pt k ⟨s, c⟩).1.2
          = List.replicate k (pad_eeg eeg mask d pt).2 ∧
       (pad_eeg eeg mask d pt).1.length = d ∧
       (pad_eeg eeg mask d pt).2.length = d ∧
       (pt = .right →
         (pad_eeg eeg mask d pt).1.take eeg.length = eeg ∧
         (pad_eeg eeg mask d pt).2
            = mask ++ List.replicate (d - mask.length) (List.replicate C 0))) ∧
    (d ≤ eeg.length →
       (sample_eeg prng eeg mask d pt k ⟨s, c⟩).1.1
          = (List.range k).map (fun j =>
              pySlice eeg (prng s (c + j) % (eeg.length - d + 1))
                (prng s (c + j) % (eeg.length - d + 1) + d)) ∧
       (sample_eeg prng eeg mask d pt k ⟨s, c⟩).1.2
          = (List.range k).map (fun j =>
              pySlice mask (prng s (c + j) % (eeg.length - d + 1))
                (prng s (c + j) % (eeg.length - d + 1) + d)) ∧
       (∀ j : Nat, prng s (c + j) % (eeg.length - d + 1) ≤ eeg.length - d)) ∧
    (sample_eeg prng eeg mask d pt k ⟨s, c⟩).1.1.length = k ∧
    (sample_eeg prng eeg mask d pt k ⟨s, c⟩).1.2.length = k ∧
    (0 < d → ∀ w ∈ (sample_eeg prng eeg mask d pt k ⟨s, c⟩).1.1,
       w.length = d ∧ ∀ r ∈ w, r.length = C) ∧
    (0 < d → ∀ w ∈ (sample_eeg prng eeg mask d pt k ⟨s, c⟩).1.2,
       w.length = d ∧ ∀ r ∈ w, r.length = C) := by
  have hmne : mask ≠ [] := by
    intro hnil
    rw [hnil] at hm
    simp at hm
    omega
  have hene : eeg ≠ [] := by
    intro hnil
    rw [hnil] at h0
    simp at h0
  have hCe : (eeg.headD []).length = C := hwe _ (headD_mem hene [])
  have hCm : (mask.headD []).length = C := hwm _ (headD_mem hmne [])
  have hpad1len : ∀ hd : 0 < d, eeg.length < d → (pad_eeg eeg mask d pt).1.length = d := by
    intro hd hlt
    rw [pad_eeg_fst_length eeg mask hd pt, nextMultiple_eq_of_le h0 (le_of_lt hlt)]
  have hpad2len : ∀ hd : 0 < d, eeg.length < d → (pad_eeg eeg mask d pt).2.length = d := by
    intro hd hlt
    rw [pad_eeg_snd_length eeg mask hd pt,
      nextMultiple_eq_of_le (hm ▸ h0) (hm ▸ le_of_lt hlt)]
  have hpadrows1 : ∀ r ∈ (pad_eeg eeg mask d pt).1, r.length = C := by
    intro r hr
    have hr2 : r ∈ pad_multiple_of eeg d pt .reflect
        (List.replicate (eeg.headD []).length 0) := hr
    rcases mem_pad_multiple_of hr2 with h | h
    · exact hwe r h
    · rw [h, List.length_replicate]
      exact hCe
  have hpadrows2 : ∀ r ∈ (pad_eeg eeg mask d pt).2, r.length = C := by
    intro r hr
    have hr2 : r ∈ pad_multiple_of mask d pt .constant
        (List.replicate (mask.headD []).length 0) := hr
    rcases mem_pad_multiple_of hr2 with h | h
    · exact hwm r h
    · rw [h, List.length_replicate]
      exact hCm
  refine ⟨?_, ?_, ?_, ?_, ?_, ?_⟩
  · intro hlt
    have hd : 0 < d := by omega
    rw [sample_eeg_pad prng eeg mask d pt k _ hlt]
    refine ⟨rfl, rfl, hpad1len hd hlt, hpad2len hd hlt, ?_⟩
    rintro rfl
    constructor
    · show (pad_multiple_of eeg d .right .reflect _).take eeg.length = eeg
      rw [pad_multiple_of_right]
      exact List.take_left eeg _
    · show pad_multiple_of mask d .right .constant
          (List.replicate (mask.headD []).length 0) = _
      rw [pad_multiple_of_right]
      congr 1
      rw [List.map_const', List.length_range, hCm,
        nextMultiple_eq_of_le (hm ▸ h0) (by omega)]
  · intro hge
    rw [sample_eeg_slice prng eeg mask d pt k s c (by omega)]
    refine ⟨rfl, rfl, ?_⟩
    intro j
    have hpos : 0 < eeg.length - d + 1 := by omega
    have := Nat.mod_lt (prng s (c + j)) hpos
    omega
  · by_cases hlt : eeg.length < d
    · rw [sample_eeg_pad prng eeg mask d pt k _ hlt]
      simp
    · rw [sample_eeg_slice prng eeg mask d pt k s c hlt]
      simp
  · by_cases hlt : eeg.length < d
    · rw [sample_eeg_pad prng eeg mask d pt k _ hlt]
      simp
    · rw [sample_eeg_slice prng eeg mask d pt k s c hlt]
      simp
  · intro hd w hw
    by_cases hlt : eeg.length < d
    · rw [sample_eeg_pad prng eeg mask d pt k _ hlt] at hw
      have hwp := List.eq_of_mem_replicate hw
      rw [hwp]
      exact ⟨hpad1len hd hlt, hpadrows1⟩
    · rw [sample_eeg_slice prng eeg mask d pt k s c hlt] at hw
      obtain ⟨j, -, rfl⟩ := List.mem_map.mp hw
      have hpos : 0 < eeg.length - d + 1 := by omega
      have hj := Nat.mod_lt (prng s (c + j)) hpos
      refine ⟨?_, ?_⟩
      · rw [pySlice_length]
        omega
      · intro r hr
        exact hwe r (mem_of_mem_pySlice hr)
  · intro hd w hw
    by_cases hlt : eeg.length < d
    · rw [sample_eeg_pad prng eeg mask d pt k _ hlt] at hw
      have hwp := List.eq_of_mem_replicate hw
      rw [hwp]
      exact ⟨hpad2len hd hlt, hpadrows2⟩
    · rw [sample_eeg_slice prng eeg mask d pt k s c hlt] at hw
      obtain ⟨j, -, rfl⟩ := List.mem_map.mp hw
      have hpos : 0 < eeg.length - d + 1 := by omega
      have hj := Nat.mod_lt (prng s (c + j)) hpos
      refine ⟨?_, ?_⟩
      · rw [pySlice_length]
        omega
      · intro r hr
        exact hwm r (mem_of_mem_pySlice hr)

theorem random_window_sampling_witness :
    0 < ([[(1 : ℚ)], [2], [3]] : List (List ℚ)).length ∧
    ([[(9 : ℚ)], [8], [7]] : List (List ℚ)).length
      = ([[(1 : ℚ)], [2], [3]] : List (List ℚ)).length ∧
    (∀ r ∈ ([[(1 : ℚ)], [2], [3]] : List (List ℚ)), r.length = 1) ∧
    (∀ r ∈ ([[(9 : ℚ)], [8], [7]] : List (List ℚ)), r.length = 1) ∧
    ((([[(1 : ℚ)], [2], [3]] : List (List ℚ)).length < 5 →
       (sample_eeg (fun a b => a + b) [[(1 : ℚ)], [2], [3]] [[(9 : ℚ)], [8], [7]]
           5 .right 2 ⟨4, 0⟩).1.1
          = List.replicate 2
              (pad_eeg [[(1 : ℚ)], [2], [3]] [[(9 : ℚ)], [8], [7]] 5 .right).1 ∧
       (sample_eeg (fun a b => a + b) [[(1 : ℚ)], [2], [3]] [[(9 : ℚ)], [8], [7]]
           5 .right 2 ⟨4, 0⟩).1.2
          = List.replicate 2
              (pad_eeg [[(1 : ℚ)], [2], [3]] [[(9 : ℚ)], [8], [7]] 5 .right).2 ∧
       (pad_eeg [[(1 : ℚ)], [2], [3]] [[(9 : ℚ)], [8], [7]] 5 .right).1.length = 5 ∧
       (pad_eeg [[(1 : ℚ)], [2], [3]] [[(9 : ℚ)], [8], [7]] 5 .right).2.length = 5 ∧
       (PaddingType.right = .right →
         (pad_eeg [[(1 : ℚ)], [2], [3]] [[(9 : ℚ)], [8], [7]] 5 .right).1.take
             ([[(1 : ℚ)], [2], [3]] : List (List ℚ)).length = [[(1 : ℚ)], [2], [3]] ∧
         (pad_eeg [[(1 : ℚ)], [2], [3]] [[(9 : ℚ)], [8], [7]] 5 .right).2
            = [[(9 : ℚ)], [8], [7]] ++
              List.replicate (5 - ([[(9 : ℚ)], [8], [7]] : List (List ℚ)).length)
                (List.replicate 1 0))) ∧
     (5 ≤ ([[(1 : ℚ)], [2], [3]] : List (List ℚ)).length →
       (sample_eeg (fun a b => a + b) [[(1 : ℚ)], [2], [3]] [[(9 : ℚ)], [8], [7]]
           5 .right 2 ⟨4, 0⟩).1.1
          = (List.range 2).map (fun j =>
              pySlice [[(1 : ℚ)], [2], [3]]
                ((fun a b => a + b) 4 (0 + j)
                  % (([[(1 : ℚ)], [2], [3]] : List (List ℚ)).length - 5 + 1))
                ((fun a b => a + b) 4 (0 + j)
                  % (([[(1 : ℚ)], [2], [3]] : List (List ℚ)).length - 5 + 1) + 5)) ∧
       (sample_eeg (fun a b => a + b) [[(1 : ℚ)], [2], [3]] [[(9 : ℚ)], [8], [7]]
           5 .right 2 ⟨4, 0⟩).1.2
          = (List.range 2).map (fun j =>
              pySlice [[(9 : ℚ)], [8], [7]]
                ((fun a b => a + b) 4 (0 + j)
                  % (([[(1 : ℚ)], [2], [3]] : List (List ℚ)).length - 5 + 1))
                ((fun a b => a + b) 4 (0 + j)
                  % (([[(1 : ℚ)], [2], [3]] : List (List ℚ)).length - 5 + 1) + 5)) ∧
       (∀ j : Nat, (fun a b => a + b) 4 (0 + j)
            % (([[(1 : ℚ)], [2], [3]] : List (List ℚ)).length - 5 + 1)
          ≤ ([[(1 : ℚ)], [2], [3]] : List (List ℚ)).length - 5)) ∧
     (sample_eeg (fun a b => a + b) [[(1 : ℚ)], [2], [3]] [[(9 : ℚ)], [8], [7]]
         5 .right 2 ⟨4, 0⟩).1.1.length = 2 ∧
     (sample_eeg (fun a b => a + b) [[(1 : ℚ)], [2], [3]] [[(9 : ℚ)], [8], [7]]
         5 .right 2 ⟨4, 0⟩).1.2.length = 2 ∧
     (0 < 5 → ∀ w ∈ (sample_eeg (fun a b => a + b) [[(1 : ℚ)], [2], [3]]
         [[(9 : ℚ)], [8], [7]] 5 .right 2 ⟨4, 0⟩).1.1,
        w.length = 5 ∧ ∀ r ∈ w, r.length = 1) ∧
     (0 < 5 → ∀ w ∈ (sample_eeg (fun a b => a + b) [[(1 : ℚ)], [2], [3]]
         [[(9 : ℚ)], [8], [7]] 5 .right 2 ⟨4, 0⟩).1.2,
        w.length = 5 ∧ ∀ r ∈ w, r.length = 1)) :=
  ⟨by decide, by decide, by decide, by decide,
   random_window_sampling (fun a b => a + b) [[(1 : ℚ)], [2], [3]]
     [[(9 : ℚ)], [8], [7]] 5 1 2 .right 4 0
     (by decide) (by decide) (by decide) (by decide)⟩

/-! ### C8: stereo doubling -/

theorem drop_append_of_length {l1 l2 : List γ} {n : Nat} (h : l1.length = n) :
    (l1 ++ l2).drop n = l2 := by
  subst h
  exact List.drop_left _ _

/-- C8: for 5-group inputs of batch size B, `collate_lr_channels` returns
batch size 2B where entry `b < B` is the left triple `[g0, g1, g2]`
(groups LL, LP, Z) and entry `B + b` is the right triple `[g4, g3, g2]`
(groups RL, RP, Z), the central Z group duplicated into both halves; it
rejects inputs whose (uniform) group count is not 5.  The EEG channel variant
`dual_stack_eeg_channels`/`EegDualStackingCollator` likewise yields batch 2B
with left = channels 0:4 ++ 4:8 ++ 8:10 and right = 14:18 ++ 10:14 ++ 8:10,
sharing the z block 8:10. -/
theorem stereo_doubling (spec mask : List (List α)) (x : List (List β)) (C : Nat)
    (hs : ∀ e ∈ spec, e.length = 5) :
    (∃ out, collate_lr_channels spec mask = some out ∧
       out.1.length = 2 * spec.length ∧ out.2.length = 2 * mask.length ∧
       (∀ (b : Nat) (g0 g1 g2 g3 g4 : α), spec[b]? = some [g0, g1, g2, g3, g4] →
          out.1[b]? = some [g0, g1, g2] ∧
          out.1[spec.length + b]? = some [g4, g3, g2]) ∧
       (∀ (b : Nat) (g0 g1 g2 g3 g4 : α), mask[b]? = some [g0, g1, g2, g3, g4] →
          out.2[b]? = some [g0, g1, g2] ∧
          out.2[mask.length + b]? = some [g4, g3, g2])) ∧
    (∀ spec2 mask2 : List (List α), 0 < spec2.length →
       (∀ e ∈ spec2, e.length = C) → C ≠ 5 →
       collate_lr_channels spec2 mask2 = none) ∧
    ((eegDualStackingCollator x false).length = 2 * x.length ∧
     (∀ (b : Nat) (r : List β), x[b]? = some r →
        (eegDualStackingCollator x false)[b]?
           = some ((pySlice r 0 4 ++ pySlice r 4 8) ++ pySlice r 8 10) ∧
        (eegDualStackingCollator x false)[x.length + b]?
           = some ((pySlice r 14 18 ++ pySlice r 10 14) ++ pySlice r 8 10)) ∧
     (∀ r ∈ x, r.length = 18 →
        ((pySlice r 0 4 ++ pySlice r 4 8) ++ pySlice r 8 10).drop 8
            = pySlice r 8 10 ∧
        ((pySlice r 14 18 ++ pySlice r 10 14) ++ pySlice r 8 10).drop 8
            = pySlice r 8 10)) := by
  have hflat : eegDualStackingCollator x false
      = x.map (fun r => (pySlice r 0 4 ++ pySlice r 4 8) ++ pySlice r 8 10)
        ++ x.map (fun r => (pySlice r 14 18 ++ pySlice r 10 14) ++ pySlice r 8 10) := by
    unfold eegDualStackingCollator dual_stack_eeg_channels
    simp
  have hall : spec.all (fun entry => entry.length == 5) = true := by
    rw [List.all_eq_true]
    intro e he
    exact beq_iff_eq.mpr (hs e he)
  have hentry : ∀ (l : List (List α)) (b : Nat) (g0 g1 g2 g3 g4 : α)
      (idx : List Nat), l[b]? = some [g0, g1, g2, g3, g4] → b < l.length := by
    intro l b g0 g1 g2 g3 g4 idx hb
    by_contra hge
    rw [List.getElem?_eq_none (by omega)] at hb
    cases hb
  refine ⟨?_, ?_, ?_⟩
  · refine ⟨(spec.map (fun e => fancyIndex e [0, 1, 2]) ++
        spec.map (fun e => fancyIndex e [4, 3, 2]),
        mask.map (fun e => fancyIndex e [0, 1, 2]) ++
        mask.map (fun e => fancyIndex e [4, 3, 2])),
      by rw [collate_lr_channels, if_pos hall], ?_, ?_, ?_, ?_⟩
    · simp only [List.length_append, List.length_map]
      omega
    · simp only [List.length_append, List.length_map]
      omega
    · intro b g0 g1 g2 g3 g4 hb
      have hblt : b < spec.length := hentry spec b g0 g1 g2 g3 g4 [] hb
      constructor
      · rw [List.getElem?_append_left (by rw [List.length_map]; exact hblt),
          List.getElem?_map, hb]
        rfl
      · rw [List.getElem?_append_right (by rw [List.length_map]; omega),
          List.length_map, Nat.add_sub_cancel_left, List.getElem?_map, hb]
        rfl
    · intro b g0 g1 g2 g3 g4 hb
      have hblt : b < mask.length := hentry mask b g0 g1 g2 g3 g4 [] hb
      constructor
      · rw [List.getElem?_append_left (by rw [List.length_map]; exact hblt),
          List.getElem?_map, hb]
        rfl
      · rw [List.getElem?_append_right (by rw [List.length_map]; omega),
          List.length_map, Nat.add_sub_cancel_left, List.getElem?_map, hb]
        rfl
  · intro spec2 mask2 h0 hC hC5
    rw [collate_lr_channels, if_neg]
    intro hcontra
    obtain ⟨e, t, rfl⟩ := List.exists_cons_of_ne_nil (List.ne_nil_of_length_pos h0)
    have h5 : e.length = 5 := by
      have := (List.all_eq_true.mp hcontra) e (List.mem_cons_self e t)
      exact beq_iff_eq.mp this
    have hCe := hC e (List.mem_cons_self e t)
    omega
  · refine ⟨?_, ?_, ?_⟩
    · rw [hflat]
      simp only [List.length_append, List.length_map]
      omega
    · intro b r hb
      have hblt : b < x.length := by
        by_contra hge
        rw [List.getElem?_eq_none (by omega)] at hb
        cases hb
      rw [hflat]
      constructor
      · rw [List.getElem?_append_left (by rw [List.length_map]; exact hblt),
          List.getElem?_map, hb]
        rfl
      · rw [List.getElem?_append_right (by rw [List.length_map]; omega),
          List.length_map, Nat.add_sub_cancel_left, List.getElem?_map, hb]
        rfl
    · intro r _ hr18
      constructor
      · have hlen : (pySlice r 0 4 ++ pySlice r 4 8).length = 8 := by
          rw [List.length_append, pySlice_length, pySlice_length]
          omega
        exact drop_append_of_length hlen
      · have hlen : (pySlice r 14 18 ++ pySlice r 10 14).length = 8 := by
          rw [List.length_append, pySlice_length, pySlice_length]
          omega
        exact drop_append_of_length hlen
theorem stereo_doubling_witness :
    (∀ e ∈ ([[0, 1, 2, 3, 4]] : List (List Nat)), e.length = 5) ∧
    ((∃ out, collate_lr_channels ([[0, 1, 2, 3, 4]] : List (List Nat))
          ([[5, 6, 7, 8, 9]] : List (List Nat)) = some out ∧
       out.1.length = 2 * ([[0, 1, 2, 3, 4]] : List (List Nat)).length ∧
       out.2.length = 2 * ([[5, 6, 7, 8, 9]] : List (List Nat)).length ∧
       (∀ (b : Nat) (g0 g1 g2 g3 g4 : Nat),
          ([[0, 1, 2, 3, 4]] : List (List Nat))[b]? = some [g0, g1, g2, g3, g4] →
          out.1[b]? = some [g0, g1, g2] ∧
          out.1[([[0, 1, 2, 3, 4]] : List (List Nat)).length + b]?
            = some [g4, g3, g2]) ∧
       (∀ (b : Nat) (g0 g1 g2 g3 g4 : Nat),
          ([[5, 6, 7, 8, 9]] : List (List Nat))[b]? = some [g0, g1, g2, g3, g4] →
          out.2[b]? = some [g0, g1, g2] ∧
          out.2[([[5, 6, 7, 8, 9]] : List (List Nat)).length + b]?
            = some [g4, g3, g2])) ∧
     (∀ spec2 mask2 : List (List Nat), 0 < spec2.length →
       (∀ e ∈ spec2, e.length = 7) → 7 ≠ 5 →
       collate_lr_channels spec2 mask2 = none) ∧
     ((eegDualStackingCollator [List.range 18] false).length
        = 2 * ([List.range 18] : List (List Nat)).length ∧
      (∀ (b : Nat) (r : List Nat), ([List.range 18] : List (List Nat))[b]? = some r →
         (eegDualStackingCollator [List.range 18] false)[b]?
            = some ((pySlice r 0 4 ++ pySlice r 4 8) ++ pySlice r 8 10) ∧
         (eegDualStackingCollator [List.range 18] false)[
             ([List.range 18] : List (List Nat)).length + b]?
            = some ((pySlice r 14 18 ++ pySlice r 10 14) ++ pySlice r 8 10)) ∧
      (∀ r ∈ ([List.range 18] : List (List Nat)), r.length = 18 →
         ((pySlice r 0 4 ++ pySlice r 4 8) ++ pySlice r 8 10).drop 8
             = pySlice r 8 10 ∧
         ((pySlice r 14 18 ++ pySlice r 10 14) ++ pySlice r 8 10).drop 8
             = pySlice r 8 10))) :=
  ⟨by decide,
   stereo_doubling [[0, 1, 2, 3, 4]] [[5, 6, 7, 8, 9]] [List.range 18] 7 (by decide)⟩

/-! ### C9: label/weight combining -/

theorem foldr_zipWith_add_length (ls : List (List ℚ)) (n : Nat)
    (hn : ∀ v ∈ ls, v.length = n) :
    (ls.foldr (List.zipWith (· + ·)) (List.replicate n 0)).length = n := by
  induction ls with
  | nil => simp
  | cons v t ih =>
    simp only [List.foldr_cons, List.length_zipWith]
    rw [hn v (List.mem_cons_self v t),
      ih (fun w hw => hn w (List.mem_cons_of_mem v hw))]
    simp

theorem getD_foldr_zipWith_add (ls : List (List ℚ)) (n c : Nat)
    (hn : ∀ v ∈ ls, v.length = n) (hc : c < n) :
    (ls.foldr (List.zipWith (· + ·)) (List.replicate n 0)).getD c 0
      = (ls.map (fun v => v.getD c 0)).sum := by
  induction ls with
  | nil =>
    simp only [List.foldr_nil, List.map_nil, List.sum_nil]
    rw [List.getD_eq_getElem _ _ (by simpa using hc), List.getElem_replicate]
  | cons v t ih =>
    have hvl : v.length = n := hn v (List.mem_cons_self v t)
    have htl : ∀ w ∈ t, w.length = n := fun w hw => hn w (List.mem_cons_of_mem v hw)
    have hfl : (t.foldr (List.zipWith (· + ·)) (List.replicate n 0)).length = n :=
      foldr_zipWith_add_length t n htl
    simp only [List.foldr_cons, List.map_cons, List.sum_cons]
    rw [List.getD_eq_getElem _ 0 (by rw [List.length_zipWith]; omega),
      List.getElem_zipWith, ← ih htl,
      List.getD_eq_getElem v 0 (by omega),
      List.getD_eq_getElem _ 0 (by omega)]

/-- C9: when several label rows are combined into one record, each combined
class probability is the weight-weighted average
`Σᵢ wᵢ pᵢ / Σᵢ wᵢ`, and the combined weight output is, as selected by the
configured weight key, either the mean or the sum of the contributing row
weights. -/
theorem label_weight_combining (rows : List LabelRow)
    (hp : ∀ r ∈ rows, r.probs.length = 6) :
    (∀ c : Nat, c < 6 →
       (aggregateRows rows).1.getD c 0
         = (rows.map (fun r => r.weight * r.probs.getD c 0)).sum
             / (rows.map LabelRow.weight).sum) ∧
    (aggregateRows rows).1.length = 6 ∧
    selectCombinedWeight .mean rows
      = (rows.map LabelRow.weight).sum / rows.length ∧
    selectCombinedWeight .sum rows = (rows.map LabelRow.weight).sum := by
  have hscaled : ∀ v ∈ rows.map (fun r => r.probs.map (fun p => p * r.weight)),
      v.length = 6 := by
    intro v hv
    obtain ⟨r, hr, rfl⟩ := List.mem_map.mp hv
    simp [hp r hr]
  have hsumlen : ((rows.map (fun r => r.probs.map (fun p => p * r.weight))).foldr
      (List.zipWith (· + ·)) (List.replicate 6 0)).length = 6 :=
    foldr_zipWith_add_length _ 6 hscaled
  refine ⟨?_, ?_, rfl, rfl⟩
  · intro c hc
    show (((rows.map (fun r => r.probs.map (fun p => p * r.weight))).foldr
        (List.zipWith (· + ·)) (List.replicate 6 0)).map
        (fun p => p / (rows.map LabelRow.weight).sum)).getD c 0 = _
    rw [List.getD_eq_getElem _ 0 (by rw [List.length_map]; omega),
      List.getElem_map, ← List.getD_eq_getElem _ 0 (by omega),
      getD_foldr_zipWith_add _ 6 c hscaled hc, List.map_map]
    congr 1
    refine congrArg List.sum ?_
    apply List.map_congr_left
    intro r hr
    simp only [Function.comp_apply]
    rw [List.getD_eq_getElem _ 0 (by rw [List.length_map]; rw [hp r hr]; omega),
      List.getElem_map, ← List.getD_eq_getElem _ 0 (by rw [hp r hr]; omega),
      mul_comm]
  · show (((rows.map (fun r => r.probs.map (fun p => p * r.weight))).foldr
        (List.zipWith (· + ·)) (List.replicate 6 0)).map
        (fun p => p / (rows.map LabelRow.weight).sum)).length = 6
    rw [List.length_map, hsumlen]

theorem label_weight_combining_witness :
    (∀ r ∈ ([⟨2, [1, 0, 0, 0, 0, 0]⟩, ⟨1, [0, 1, 0, 0, 0, 0]⟩] : List LabelRow),
       r.probs.length = 6) ∧
    ((∀ c : Nat, c < 6 →
       (aggregateRows [⟨2, [1, 0, 0, 0, 0, 0]⟩, ⟨1, [0, 1, 0, 0, 0, 0]⟩]).1.getD c 0
         = (([⟨2, [1, 0, 0, 0, 0, 0]⟩, ⟨1, [0, 1, 0, 0, 0, 0]⟩] : List LabelRow).map
              (fun r => r.weight * r.probs.getD c 0)).sum
             / (([⟨2, [1, 0, 0, 0, 0, 0]⟩, ⟨1, [0, 1, 0, 0, 0, 0]⟩] : List LabelRow).map
                  LabelRow.weight).sum) ∧
     (aggregateRows [⟨2, [1, 0, 0, 0, 0, 0]⟩, ⟨1, [0, 1, 0, 0, 0, 0]⟩]).1.length = 6 ∧
     selectCombinedWeight .mean [⟨2, [1, 0, 0, 0, 0, 0]⟩, ⟨1, [0, 1, 0, 0, 0, 0]⟩]
       = (([⟨2, [1, 0, 0, 0, 0, 0]⟩, ⟨1, [0, 1, 0, 0, 0, 0]⟩] : List LabelRow).map
            LabelRow.weight).sum
           / (([⟨2, [1, 0, 0, 0, 0, 0]⟩, ⟨1, [0, 1, 0, 0, 0, 0]⟩] : List LabelRow).length) ∧
     selectCombinedWeight .sum [⟨2, [1, 0, 0, 0, 0, 0]⟩, ⟨1, [0, 1, 0, 0, 0, 0]⟩]
       = (([⟨2, [1, 0, 0, 0, 0, 0]⟩, ⟨1, [0, 1, 0, 0, 0, 0]⟩] : List LabelRow).map
            LabelRow.weight).sum) :=
  ⟨by decide,
   label_weight_combining [⟨2, [1, 0, 0, 0, 0, 0]⟩, ⟨1, [0, 1, 0, 0, 0, 0]⟩]
     (by decide)⟩

/-! ### Matrix lemmas for the channel-group aggregators -/

/-- `m` is an `h × w` plane. -/
def matShape (h w : Nat) (m : Mat) : Prop := m.length = h ∧ ∀ r ∈ m, r.length = w

instance (h w : Nat) (m : Mat) : Decidable (matShape h w m) := by
  unfold matShape
  infer_instance

theorem matShape_map2Mat {h w : Nat} {a b : Mat} (f : ℚ → ℚ → ℚ)
    (ha : matShape h w a) (hb : matShape h w b) : matShape h w (map2Mat f a b) := by
  obtain ⟨hal, har⟩ := ha
  obtain ⟨hbl, hbr⟩ := hb
  constructor
  · rw [map2Mat, List.length_zipWith, hal, hbl]
    omega
  · intro r hr
    obtain ⟨i, hilt, hre⟩ := List.mem_iff_getElem.mp hr
    have hia : i < a.length := by
      rw [map2Mat, List.length_zipWith] at hilt
      omega
    have hib : i < b.length := by
      rw [map2Mat, List.length_zipWith] at hilt
      omega
    have hrow : (map2Mat f a b)[i]? = some (List.zipWith f a[i] b[i]) := by
      rw [map2Mat, List.getElem?_zipWith', List.getElem?_eq_getElem hia,
        List.getElem?_eq_getElem hib]
      rfl
    have hre2 : r = List.zipWith f a[i] b[i] := by
      rw [← hre]
      exact Option.some.inj ((List.getElem?_eq_getElem hilt).symm.trans hrow)
    rw [hre2, List.length_zipWith, har a[i] (List.getElem_mem hia),
      hbr b[i] (List.getElem_mem hib)]
    omega

theorem matShape_zerosMat (h w : Nat) : matShape h w (zerosMat h w) := by
  constructor
  · simp [zerosMat]
  · intro r hr
    rw [List.eq_of_mem_replicate hr]
    simp

theorem matShape_sumMats {h w : Nat} {ms : List Mat}
    (hm : ∀ m ∈ ms, matShape h w m) : matShape h w (sumMats h w ms) := by
  induction ms with
  | nil => exact matShape_zerosMat h w
  | cons m t ih =>
    exact matShape_map2Mat _ (hm m (List.mem_cons_self m t))
      (ih (fun n hn => hm n (List.mem_cons_of_mem m hn)))

theorem matEnt_eq_getElem {m : Mat} {i j : Nat} (hi : i < m.length)
    (hj : j < m[i].length) : matEnt m i j = m[i][j] := by
  rw [matEnt, List.getD_eq_getElem _ _ hi, List.getD_eq_getElem _ _ hj]

theorem matEnt_map2Mat {h w : Nat} {a b : Mat} (f : ℚ → ℚ → ℚ)
    (ha : matShape h w a) (hb : matShape h w b) {i j : Nat}
    (hi : i < h) (hj : j < w) :
    matEnt (map2Mat f a b) i j = f (matEnt a i j) (matEnt b i j) := by
  obtain ⟨hal, har⟩ := ha
  obtain ⟨hbl, hbr⟩ := hb
  have hia : i < a.length := by omega
  have hib : i < b.length := by omega
  have hja : j < a[i].length := by
    rw [har a[i] (List.getElem_mem hia)]
    exact hj
  have hjb : j < b[i].length := by
    rw [hbr b[i] (List.getElem_mem hib)]
    exact hj
  have hrow : (map2Mat f a b)[i]? = some (List.zipWith f a[i] b[i]) := by
    rw [map2Mat, List.getElem?_zipWith', List.getElem?_eq_getElem hia,
      List.getElem?_eq_getElem hib]
    rfl
  have hval : (List.zipWith f a[i] b[i])[j]? = some (f a[i][j] b[i][j]) := by
    rw [List.getElem?_zipWith', List.getElem?_eq_getElem hja,
      List.getElem?_eq_getElem hjb]
    rfl
  have h1 : List.getD (map2Mat f a b) i [] = List.zipWith f a[i] b[i] := by
    rw [List.getD_eq_getElem?_getD, hrow, Option.getD_some]
  rw [matEnt, h1, List.getD_eq_getElem?_getD, hval, Option.getD_some,
    matEnt_eq_getElem hia hja, matEnt_eq_getElem hib hjb]

theorem matEnt_zerosMat {h w : Nat} (i j : Nat) : matEnt (zerosMat h w) i j = 0 := by
  rw [matEnt, zerosMat]
  rcases lt_or_ge i h with hi | hi
  · have h1 : List.getD (List.replicate h (List.replicate w (0 : ℚ))) i []
        = List.replicate w 0 := by
      rw [List.getD_eq_getElem _ _ (by simpa using hi), List.getElem_replicate]
    rw [h1]
    rcases lt_or_ge j w with hj | hj
    · rw [List.getD_eq_getElem _ _ (by simpa using hj), List.getElem_replicate]
    · rw [List.getD_eq_default _ _ (by simpa using hj)]
  · have h1 : List.getD (List.replicate h (List.replicate w (0 : ℚ))) i [] = [] := by
      rw [List.getD_eq_default _ _ (by simpa using hi)]
    rw [h1]
    simp

theorem matEnt_sumMats {h w : Nat} {ms : List Mat}
    (hm : ∀ m ∈ ms, matShape h w m) {i j : Nat} (hi : i < h) (hj : j < w) :
    matEnt (sumMats h w ms) i j = (ms.map (fun m => matEnt m i j)).sum := by
  induction ms with
  | nil =>
    simp only [sumMats, List.foldr_nil, List.map_nil, List.sum_nil]
    exact matEnt_zerosMat i j
  | cons m t ih =>
    have hmh : matShape h w m := hm m (List.mem_cons_self m t)
    have hth : ∀ n ∈ t, matShape h w n := fun n hn => hm n (List.mem_cons_of_mem m hn)
    simp only [sumMats, List.foldr_cons, List.map_cons, List.sum_cons]
    rw [show (List.foldr (map2Mat (· + ·)) (zerosMat h w) t) = sumMats h w t from rfl,
      matEnt_map2Mat (· + ·) hmh (matShape_sumMats hth) hi hj, ih hth]

theorem chanSlice_eq_map {x : List Mat} {s e : Nat} (he : e ≤ x.length) :
    chanSlice x s e = (List.range (e - s)).map (fun t => x.getD (s + t) []) := by
  apply List.ext_getElem?
  intro t
  rcases lt_or_ge t (e - s) with ht | ht
  · rw [chanSlice, List.getElem?_drop, List.getElem?_take, if_pos (by omega),
      List.getElem?_map, List.getElem?_range (by omega), Option.map_some',
      List.getElem?_eq_getElem (by omega : s + t < x.length),
      List.getD_eq_getElem _ _ (by omega : s + t < x.length)]
  · rw [List.getElem?_eq_none, List.getElem?_eq_none]
    · rw [List.length_map, List.length_range]
      omega
    · rw [chanSlice, List.length_drop, List.length_take]
      omega

theorem matShape_chanSlice {h w : Nat} {x : List Mat} (s e : Nat)
    (hx : ∀ m ∈ x, matShape h w m) : ∀ m ∈ chanSlice x s e, matShape h w m :=
  fun m hm => hx m (mem_of_mem_pySlice hm)

theorem aggGroups_of_le {C : Nat} (h : 5 ≤ C) :
    aggGroups C = [(0, 4), (4, 8), (8, 10), (10, 14), (14, 18)] := by
  unfold aggGroups
  rw [show aggRanges.zip aggRanges.tail
      = [(0, 4), (4, 8), (8, 10), (10, 14), (14, 18)] from rfl]
  apply List.map_snd_zip
  rw [List.length_range]
  simpa

theorem weightedMean_group_ent (eps : ℚ) (spec mask : List Mat) (H W : Nat)
    (hse : ∀ m ∈ spec, matShape H W m) (hsm : ∀ m ∈ mask, matShape H W m)
    (s e : Nat) (hes : e ≤ spec.length) (hem : e ≤ mask.length)
    {i j : Nat} (hi : i < H) (hj : j < W) :
    matEnt (map2Mat (fun a b => a / (b + eps))
        (sumMats H W (List.zipWith (map2Mat (· * ·))
          (chanSlice spec s e) (chanSlice mask s e)))
        (sumMats H W (chanSlice mask s e))) i j
      = ((List.range (e - s)).map (fun t =>
            matEnt (spec.getD (s + t) []) i j
              * matEnt (mask.getD (s + t) []) i j)).sum
        / (((List.range (e - s)).map (fun t =>
              matEnt (mask.getD (s + t) []) i j)).sum + eps) ∧
    matEnt (sumMats H W (chanSlice mask s e)) i j
      = ((List.range (e - s)).map (fun t =>
            matEnt (mask.getD (s + t) []) i j)).sum := by
  have hgetS : ∀ t, t < e - s → spec.getD (s + t) [] ∈ spec := by
    intro t ht
    rw [List.getD_eq_getElem _ _ (by omega : s + t < spec.length)]
    exact List.getElem_mem _
  have hgetM : ∀ t, t < e - s → mask.getD (s + t) [] ∈ mask := by
    intro t ht
    rw [List.getD_eq_getElem _ _ (by omega : s + t < mask.length)]
    exact List.getElem_mem _
  have hprod : List.zipWith (map2Mat (· * ·)) (chanSlice spec s e) (chanSlice mask s e)
      = (List.range (e - s)).map (fun t =>
          map2Mat (· * ·) (spec.getD (s + t) []) (mask.getD (s + t) [])) := by
    rw [chanSlice_eq_map hes, chanSlice_eq_map hem, List.zipWith_map_left,
      List.zipWith_map_right, List.zipWith_same]
  have hprodShape : ∀ m ∈ List.zipWith (map2Mat (· * ·))
      (chanSlice spec s e) (chanSlice mask s e), matShape H W m := by
    rw [hprod]
    intro m hm
    obtain ⟨t, ht, rfl⟩ := List.mem_map.mp hm
    rw [List.mem_range] at ht
    exact matShape_map2Mat _ (hse _ (hgetS t ht)) (hsm _ (hgetM t ht))
  have hmaskShape : ∀ m ∈ chanSlice mask s e, matShape H W m :=
    matShape_chanSlice s e hsm
  have hmaskSum : matEnt (sumMats H W (chanSlice mask s e)) i j
      = ((List.range (e - s)).map (fun t =>
          matEnt (mask.getD (s + t) []) i j)).sum := by
    rw [matEnt_sumMats hmaskShape hi hj, chanSlice_eq_map hem, List.map_map]
    rfl
  have hspecSum : matEnt (sumMats H W (List.zipWith (map2Mat (· * ·))
      (chanSlice spec s e) (chanSlice mask s e))) i j
      = ((List.range (e - s)).map (fun t =>
          matEnt (spec.getD (s + t) []) i j * matEnt (mask.getD (s + t) []) i j)).sum := by
    rw [matEnt_sumMats hprodShape hi hj, hprod, List.map_map]
    congr 1
    apply List.map_congr_left
    intro t ht
    rw [List.mem_range] at ht
    exact matEnt_map2Mat _ (hse _ (hgetS t ht)) (hsm _ (hgetM t ht)) hi hj
  refine ⟨?_, hmaskSum⟩
  rw [matEnt_map2Mat _ (matShape_sumMats hprodShape) (matShape_sumMats hmaskShape) hi hj,
    hmaskSum, hspecSum]

/-- C6: the weighted-mean aggregator: over the 5 channel groups delimited by
the boundaries `[0, 4, 8, 10, 14, 18]`, each output signal channel entry is
`Σ_group (signal · mask) / (Σ_group mask + ε)` with `ε = eps`, each output
mask channel is the group's mask sum, the output has exactly 5 channels, and
a group whose mask is entirely zero yields output exactly 0 (no NaN or
division error in exact arithmetic, bounded by the ε denominator). -/
theorem weighted_mean_aggregation (eps : ℚ) (spec mask : List Mat) (H W : Nat)
    (hC : 18 ≤ spec.length) (hCm : 18 ≤ mask.length) (hH : 0 < H)
    (hse : ∀ m ∈ spec, matShape H W m) (hsm : ∀ m ∈ mask, matShape H W m) :
    (weightedMeanEntry eps spec mask).1.length = 5 ∧
    (weightedMeanEntry eps spec mask).2.length = 5 ∧
    (∀ g, g < 5 → ∀ i, i < H → ∀ j, j < W →
       (matEnt ((weightedMeanEntry eps spec mask).1.getD g []) i j
         = ((List.range (aggRanges.getD (g + 1) 0 - aggRanges.getD g 0)).map (fun t =>
              matEnt (spec.getD (aggRanges.getD g 0 + t) []) i j
                * matEnt (mask.getD (aggRanges.getD g 0 + t) []) i j)).sum
           / (((List.range (aggRanges.getD (g + 1) 0 - aggRanges.getD g 0)).map (fun t =>
                matEnt (mask.getD (aggRanges.getD g 0 + t) []) i j)).sum + eps) ∧
       matEnt ((weightedMeanEntry eps spec mask).2.getD g []) i j
         = ((List.range (aggRanges.getD (g + 1) 0 - aggRanges.getD g 0)).map (fun t =>
              matEnt (mask.getD (aggRanges.getD g 0 + t) []) i j)).sum)) ∧
    (∀ g, g < 5 → ∀ i, i < H → ∀ j, j < W →
       (∀ t, t < aggRanges.getD (g + 1) 0 - aggRanges.getD g 0 →
          matEnt (mask.getD (aggRanges.getD g 0 + t) []) i j = 0) →
       matEnt ((weightedMeanEntry eps spec mask).1.getD g []) i j = 0) := by
  have hne : spec ≠ [] := by
    intro h
    rw [h] at hC
    simp at hC
  have hHd : (spec.headD []).length = H := (hse _ (headD_mem hne [])).1
  have hrne : (spec.headD []) ≠ [] := by
    intro h
    rw [h] at hHd
    simp at hHd
    omega
  have hWd : ((spec.headD []).headD []).length = W :=
    (hse _ (headD_mem hne [])).2 _ (headD_mem hrne [])
  have hunf1 : (weightedMeanEntry eps spec mask).1
      = ([(0, 4), (4, 8), (8, 10), (10, 14), (14, 18)] : List (Nat × Nat)).map
          (fun se => map2Mat (fun a b => a / (b + eps))
            (sumMats H W (List.zipWith (map2Mat (· * ·))
              (chanSlice spec se.1 se.2) (chanSlice mask se.1 se.2)))
            (sumMats H W (chanSlice mask se.1 se.2))) := by
    simp only [weightedMeanEntry, aggGroups_of_le (by omega : 5 ≤ spec.length),
      hHd, hWd, List.map_map]
    rfl
  have hunf2 : (weightedMeanEntry eps spec mask).2
      = ([(0, 4), (4, 8), (8, 10), (10, 14), (14, 18)] : List (Nat × Nat)).map
          (fun se => sumMats H W (chanSlice mask se.1 se.2)) := by
    simp only [weightedMeanEntry, aggGroups_of_le (by omega : 5 ≤ spec.length),
      hHd, hWd, List.map_map]
    rfl
  have hgrp := fun (s e : Nat) (hes : e ≤ spec.length) (hem : e ≤ mask.length)
      {i j : Nat} (hi : i < H) (hj : j < W) =>
    weightedMean_group_ent eps spec mask H W hse hsm s e hes hem hi hj
  refine ⟨by rw [hunf1]; rfl, by rw [hunf2]; rfl, ?_, ?_⟩
  · intro g hg i hi j hj
    rw [hunf1, hunf2]
    interval_cases g <;>
      simp only [List.map_cons, List.map_nil, List.getD_cons_zero,
        List.getD_cons_succ, aggRanges] <;>
      · constructor
        · exact (hgrp _ _ (by omega) (by omega) hi hj).1
        · exact (hgrp _ _ (by omega) (by omega) hi hj).2
  · intro g hg i hi j hj hz
    rw [hunf1]
    have hz2 : ((List.range (aggRanges.getD (g + 1) 0 - aggRanges.getD g 0)).map
        (fun t => matEnt (mask.getD (aggRanges.getD g 0 + t) []) i j)).sum = 0 := by
      apply List.sum_eq_zero
      intro x hx
      obtain ⟨t, ht, rfl⟩ := List.mem_map.mp hx
      rw [List.mem_range] at ht
      exact hz t ht
    have hz1 : ((List.range (aggRanges.getD (g + 1) 0 - aggRanges.getD g 0)).map
        (fun t => matEnt (spec.getD (aggRanges.getD g 0 + t) []) i j
          * matEnt (mask.getD (aggRanges.getD g 0 + t) []) i j)).sum = 0 := by
      apply List.sum_eq_zero
      intro x hx
      obtain ⟨t, ht, rfl⟩ := List.mem_map.mp hx
      rw [List.mem_range] at ht
      rw [hz t ht, mul_zero]
    interval_cases g <;>
      · simp only [List.map_cons, List.map_nil, List.getD_cons_zero,
          List.getD_cons_succ]
        simp only [aggRanges, List.getD_cons_zero, List.getD_cons_succ] at hz1 hz2
        rw [(hgrp _ _ (by omega) (by omega) hi hj).1]
        norm_num at hz1 hz2 ⊢
        rw [hz1, hz2]
        simp

theorem weighted_mean_aggregation_witness :
    18 ≤ (List.replicate 20 [[(2 : ℚ)]]).length ∧
    18 ≤ (List.replicate 19 [[(1 : ℚ)]]).length ∧
    0 < 1 ∧
    (∀ m ∈ List.replicate 20 [[(2 : ℚ)]], matShape 1 1 m) ∧
    (∀ m ∈ List.replicate 19 [[(1 : ℚ)]], matShape 1 1 m) ∧
    ((weightedMeanEntry 1 (List.replicate 20 [[(2 : ℚ)]])
        (List.replicate 19 [[(1 : ℚ)]])).1.length = 5 ∧
     (weightedMeanEntry 1 (List.replicate 20 [[(2 : ℚ)]])
        (List.replicate 19 [[(1 : ℚ)]])).2.length = 5 ∧
     (∀ g, g < 5 → ∀ i, i < 1 → ∀ j, j < 1 →
        (matEnt ((weightedMeanEntry 1 (List.replicate 20 [[(2 : ℚ)]])
             (List.replicate 19 [[(1 : ℚ)]])).1.getD g []) i j
          = ((List.range (aggRanges.getD (g + 1) 0 - aggRanges.getD g 0)).map (fun t =>
               matEnt ((List.replicate 20 [[(2 : ℚ)]]).getD (aggRanges.getD g 0 + t) []) i j
                 * matEnt ((List.replicate 19 [[(1 : ℚ)]]).getD
                     (aggRanges.getD g 0 + t) []) i j)).sum
            / (((List.range (aggRanges.getD (g + 1) 0 - aggRanges.getD g 0)).map (fun t =>
                 matEnt ((List.replicate 19 [[(1 : ℚ)]]).getD
                   (aggRanges.getD g 0 + t) []) i j)).sum + 1) ∧
        matEnt ((weightedMeanEntry 1 (List.replicate 20 [[(2 : ℚ)]])
             (List.replicate 19 [[(1 : ℚ)]])).2.getD g []) i j
          = ((List.range (aggRanges.getD (g + 1) 0 - aggRanges.getD g 0)).map (fun t =>
               matEnt ((List.replicate 19 [[(1 : ℚ)]]).getD
                 (aggRanges.getD g 0 + t) []) i j)).sum)) ∧
     (∀ g, g < 5 → ∀ i, i < 1 → ∀ j, j < 1 →
        (∀ t, t < aggRanges.getD (g + 1) 0 - aggRanges.getD g 0 →
           matEnt ((List.replicate 19 [[(1 : ℚ)]]).getD
             (aggRanges.getD g 0 + t) []) i j = 0) →
        matEnt ((weightedMeanEntry 1 (List.replicate 20 [[(2 : ℚ)]])
             (List.replicate 19 [[(1 : ℚ)]])).1.getD g []) i j = 0)) :=
  ⟨by decide, by decide, by decide, by decide, by decide,
   weighted_mean_aggregation 1 (List.replicate 20 [[(2 : ℚ)]])
     (List.replicate 19 [[(1 : ℚ)]]) 1 1
     (by decide) (by decide) (by decide) (by decide) (by decide)⟩

/-! ### C7: spatial extent under aggregation -/

/-- C7 counterexample: at a concrete 18-channel input whose planes have
frequency extent 1 (and time extent 1), the tiling aggregator's first output
plane has frequency extent 4, so channel-group aggregation does not always
leave the spatial frequency-by-time extent unchanged. -/
theorem tiling_changes_freq_extent_cex :
    ((List.replicate 18 [[(0 : ℚ)]] : List Mat).headD []).length = 1 ∧
    ((tilingEntry (List.replicate 18 [[(0 : ℚ)]])
        (List.replicate 18 [[(0 : ℚ)]])).1.getD 0 []).length = 4 := by
  decide

theorem tile_shape (spec : List Mat) (H W : Nat) (hsp : ∀ m ∈ spec, matShape H W m)
    (s e : Nat) (hes : e ≤ spec.length) (hse4 : e - s ≤ 4) :
    matShape (4 * H) W ((chanSlice spec s e).flatten
      ++ List.replicate (H * (4 - (e - s))) (List.replicate W 0)) := by
  have hslice : ∀ m ∈ chanSlice spec s e, matShape H W m := matShape_chanSlice s e hsp
  have hlenslice : (chanSlice spec s e).length = e - s := by
    rw [chanSlice, List.length_drop, List.length_take]
    omega
  constructor
  · rw [List.length_append, List.length_flatten, List.length_replicate]
    have h1 : ∀ b ∈ (chanSlice spec s e).map List.length, b = H := by
      intro b hb
      obtain ⟨m, hm, rfl⟩ := List.mem_map.mp hb
      exact (hslice m hm).1
    have hrep := List.eq_replicate_of_mem h1
    rw [List.length_map, hlenslice] at hrep
    rw [hrep, List.sum_replicate, smul_eq_mul]
    generalize hgen : e - s = k at hse4
    interval_cases k <;> omega
  · intro r hr
    rcases List.mem_append.mp hr with h | h
    · obtain ⟨l, hl, hrl⟩ := List.mem_flatten.mp h
      exact (hslice l hl).2 r hrl
    · rw [List.eq_of_mem_replicate h]
      simp

theorem matShape_zipWith {h w : Nat} {xs ys : List Mat} (f : ℚ → ℚ → ℚ)
    (hx : ∀ m ∈ xs, matShape h w m) (hy : ∀ m ∈ ys, matShape h w m) :
    ∀ m ∈ List.zipWith (map2Mat f) xs ys, matShape h w m := by
  intro m hm
  obtain ⟨i, hilt, hre⟩ := List.mem_iff_getElem.mp hm
  have hia : i < xs.length := by
    rw [List.length_zipWith] at hilt
    omega
  have hib : i < ys.length := by
    rw [List.length_zipWith] at hilt
    omega
  have hrow : (List.zipWith (map2Mat f) xs ys)[i]? = some (map2Mat f xs[i] ys[i]) := by
    rw [List.getElem?_zipWith', List.getElem?_eq_getElem hia,
      List.getElem?_eq_getElem hib]
    rfl
  have hmeq : m = map2Mat f xs[i] ys[i] := by
    rw [← hre]
    exact Option.some.inj ((List.getElem?_eq_getElem hilt).symm.trans hrow)
  rw [hmeq]
  exact matShape_map2Mat f (hx _ (List.getElem_mem hia)) (hy _ (List.getElem_mem hib))

theorem mem_of_mem_fancyIndex {r : List α} {idx : List Nat} {x : α}
    (hx : x ∈ fancyIndex r idx) : x ∈ r := by
  unfold fancyIndex at hx
  obtain ⟨i, -, hi⟩ := List.mem_filterMap.mp hx
  exact List.getElem?_mem hi

/-- C7 (amended): the weighted-mean aggregator leaves the spatial
frequency-by-time extent unchanged (all output planes stay `H × W`); the
tiling aggregator preserves the time extent but stacks each group's channels
along the frequency axis, producing planes of extent `(4·H) × W`; the
stereo-doubling collation alters only the batch extent — it doubles the
batch and every plane it outputs is one of the input planes, untouched. -/
theorem spatial_extent_policy (eps : ℚ) (spec mask : List Mat)
    (specB maskB : List (List Mat)) (H W : Nat)
    (hC : 18 ≤ spec.length) (hCm : 18 ≤ mask.length) (hH : 0 < H)
    (hse : ∀ m ∈ spec, matShape H W m) (hsm : ∀ m ∈ mask, matShape H W m) :
    (∀ m ∈ (weightedMeanEntry eps spec mask).1, matShape H W m) ∧
    (∀ m ∈ (weightedMeanEntry eps spec mask).2, matShape H W m) ∧
    (∀ m ∈ (tilingEntry spec mask).1, matShape (4 * H) W m) ∧
    (∀ m ∈ (tilingEntry spec mask).2, matShape (4 * H) W m) ∧
    (∀ out, collate_lr_channels specB maskB = some out →
       out.1.length = 2 * specB.length ∧
       (∀ entry ∈ out.1, ∀ m ∈ entry, ∃ e ∈ specB, m ∈ e) ∧
       (∀ entry ∈ out.2, ∀ m ∈ entry, ∃ e ∈ maskB, m ∈ e)) := by
  have hne : spec ≠ [] := by
    intro h
    rw [h] at hC
    simp at hC
  have hHd : (spec.headD []).length = H := (hse _ (headD_mem hne [])).1
  have hrne : (spec.headD []) ≠ [] := by
    intro h
    rw [h] at hHd
    simp at hHd
    omega
  have hWd : ((spec.headD []).headD []).length = W :=
    (hse _ (headD_mem hne [])).2 _ (headD_mem hrne [])
  have hbounds : ∀ se ∈ ([(0, 4), (4, 8), (8, 10), (10, 14), (14, 18)] :
      List (Nat × Nat)), se.2 ≤ 18 ∧ se.2 - se.1 ≤ 4 := by decide
  have hunfW1 : (weightedMeanEntry eps spec mask).1
      = ([(0, 4), (4, 8), (8, 10), (10, 14), (14, 18)] : List (Nat × Nat)).map
          (fun se => map2Mat (fun a b => a / (b + eps))
            (sumMats H W (List.zipWith (map2Mat (· * ·))
              (chanSlice spec se.1 se.2) (chanSlice mask se.1 se.2)))
            (sumMats H W (chanSlice mask se.1 se.2))) := by
    simp only [weightedMeanEntry, aggGroups_of_le (by omega : 5 ≤ spec.length),
      hHd, hWd, List.map_map]
    rfl
  have hunfW2 : (weightedMeanEntry eps spec mask).2
      = ([(0, 4), (4, 8), (8, 10), (10, 14), (14, 18)] : List (Nat × Nat)).map
          (fun se => sumMats H W (chanSlice mask se.1 se.2)) := by
    simp only [weightedMeanEntry, aggGroups_of_le (by omega : 5 ≤ spec.length),
      hHd, hWd, List.map_map]
    rfl
  have hunfT1 : (tilingEntry spec mask).1
      = ([(0, 4), (4, 8), (8, 10), (10, 14), (14, 18)] : List (Nat × Nat)).map
          (fun se => (chanSlice spec se.1 se.2).flatten ++
            List.replicate (H * (4 - (se.2 - se.1))) (List.replicate W 0)) := by
    simp only [tilingEntry, aggGroups_of_le (by omega : 5 ≤ spec.length),
      hHd, hWd, List.map_map]
    rfl
  have hunfT2 : (tilingEntry spec mask).2
      = ([(0, 4), (4, 8), (8, 10), (10, 14), (14, 18)] : List (Nat × Nat)).map
          (fun se => (chanSlice mask se.1 se.2).flatten ++
            List.replicate (H * (4 - (se.2 - se.1))) (List.replicate W 0)) := by
    simp only [tilingEntry, aggGroups_of_le (by omega : 5 ≤ spec.length),
      hHd, hWd, List.map_map]
    rfl
  refine ⟨?_, ?_, ?_, ?_, ?_⟩
  · rw [hunfW1]
    intro m hm
    obtain ⟨se, hsein, rfl⟩ := List.mem_map.mp hm
    obtain ⟨hse2, -⟩ := hbounds se hsein
    exact matShape_map2Mat _
      (matShape_sumMats (matShape_zipWith _ (matShape_chanSlice _ _ hse)
        (matShape_chanSlice _ _ hsm)))
      (matShape_sumMats (matShape_chanSlice _ _ hsm))
  · rw [hunfW2]
    intro m hm
    obtain ⟨se, hsein, rfl⟩ := List.mem_map.mp hm
    exact matShape_sumMats (matShape_chanSlice _ _ hsm)
  · rw [hunfT1]
    intro m hm
    obtain ⟨se, hsein, rfl⟩ := List.mem_map.mp hm
    obtain ⟨hse2, hse4⟩ := hbounds se hsein
    exact tile_shape spec H W hse se.1 se.2 (by omega) hse4
  · rw [hunfT2]
    intro m hm
    obtain ⟨se, hsein, rfl⟩ := List.mem_map.mp hm
    obtain ⟨hse2, hse4⟩ := hbounds se hsein
    exact tile_shape mask H W hsm se.1 se.2 (by omega) hse4
  · intro out hout
    rw [collate_lr_channels] at hout
    split at hout
    · cases hout
      refine ⟨by simp only [List.length_append, List.length_map]; omega, ?_, ?_⟩
      · intro entry hentry m hmem
        rcases List.mem_append.mp hentry with h | h <;>
          · obtain ⟨e, he, rfl⟩ := List.mem_map.mp h
            exact ⟨e, he, mem_of_mem_fancyIndex hmem⟩
      · intro entry hentry m hmem
        rcases List.mem_append.mp hentry with h | h <;>
          · obtain ⟨e, he, rfl⟩ := List.mem_map.mp h
            exact ⟨e, he, mem_of_mem_fancyIndex hmem⟩
    · cases hout

theorem spatial_extent_policy_witness :
    18 ≤ (List.replicate 20 [[(2 : ℚ)]]).length ∧
    18 ≤ (List.replicate 19 [[(1 : ℚ)]]).length ∧
    0 < 1 ∧
    (∀ m ∈ List.replicate 20 [[(2 : ℚ)]], matShape 1 1 m) ∧
    (∀ m ∈ List.replicate 19 [[(1 : ℚ)]], matShape 1 1 m) ∧
    ((∀ m ∈ (weightedMeanEntry 1 (List.replicate 20 [[(2 : ℚ)]])
        (List.replicate 19 [[(1 : ℚ)]])).1, matShape 1 1 m) ∧
     (∀ m ∈ (weightedMeanEntry 1 (List.replicate 20 [[(2 : ℚ)]])
        (List.replicate 19 [[(1 : ℚ)]])).2, matShape 1 1 m) ∧
     (∀ m ∈ (tilingEntry (List.replicate 20 [[(2 : ℚ)]])
        (List.replicate 19 [[(1 : ℚ)]])).1, matShape (4 * 1) 1 m) ∧
     (∀ m ∈ (tilingEntry (List.replicate 20 [[(2 : ℚ)]])
        (List.replicate 19 [[(1 : ℚ)]])).2, matShape (4 * 1) 1 m) ∧
     (∀ out, collate_lr_channels ([List.replicate 5 [[(3 : ℚ)]]] : List (List Mat))
          ([List.replicate 5 [[(4 : ℚ)]]] : List (List Mat)) = some out →
        out.1.length = 2 * ([List.replicate 5 [[(3 : ℚ)]]] : List (List Mat)).length ∧
        (∀ entry ∈ out.1, ∀ m ∈ entry,
           ∃ e ∈ ([List.replicate 5 [[(3 : ℚ)]]] : List (List Mat)), m ∈ e) ∧
        (∀ entry ∈ out.2, ∀ m ∈ entry,
           ∃ e ∈ ([List.replicate 5 [[(4 : ℚ)]]] : List (List Mat)), m ∈ e))) :=
  ⟨by decide, by decide, by decide, by decide, by decide,
   spatial_extent_policy 1 (List.replicate 20 [[(2 : ℚ)]])
     (List.replicate 19 [[(1 : ℚ)]]) [List.replicate 5 [[(3 : ℚ)]]]
     [List.replicate 5 [[(4 : ℚ)]]] 1 1
     (by decide) (by decide) (by decide) (by decide) (by decide)⟩

/-! ### C10: signal/mask co-alignment -/

theorem pySlice_getD (l : List (List ℚ)) (a b i : Nat) (hab : a + i < b) :
    (pySlice l a b).getD i [] = l.getD (a + i) [] := by
  rw [pySlice, List.getD_eq_getElem?_getD, List.getElem?_drop, List.getElem?_take,
    if_pos hab, List.getD_eq_getElem?_getD]

theorem pySliceInt_length_eq {l1 l2 : List α} (a b : Int)
    (h : l1.length = l2.length) :
    (pySliceInt l1 a b).length = (pySliceInt l2 a b).length := by
  unfold pySliceInt
  dsimp only
  rw [pySlice_length, pySlice_length, h]

/-- C10: every sampling and windowing operation extracts the signal window
and the validity-mask window with the identical start and end frames from
co-indexed arrays: `sample_eeg` produces equally many equally long windows
whose rows at each position come from the same source frame of signal and
mask; `SlidingWindowEegDataset.__getitem__` slices both arrays with the same
chunk bounds, so row `i` of each output is source row `start + i` of the
respective array; and `PerEegSubsampleDataset.__getitem__` derives one frame
window from the drawn row and applies it to both arrays, giving outputs of
identical time extent. -/
theorem signal_mask_coalignment (prng : Nat → Nat → Nat) (eeg cqf : List (List ℚ))
    (d k s0 c0 sF eF : Nat) (pt : PaddingType)
    (offsetSec samplingRate durationSec : ℚ)
    (hlen : cqf.length = eeg.length) (hd : 0 < d) :
    ((sample_eeg prng eeg cqf d pt k ⟨s0, c0⟩).1.1.length
        = (sample_eeg prng eeg cqf d pt k ⟨s0, c0⟩).1.2.length) ∧
    (d ≤ eeg.length →
      ∀ j, j < k →
        ∃ st, st + d ≤ eeg.length ∧
          (sample_eeg prng eeg cqf d pt k ⟨s0, c0⟩).1.1.getD j []
            = pySlice eeg st (st + d) ∧
          (sample_eeg prng eeg cqf d pt k ⟨s0, c0⟩).1.2.getD j []
            = pySlice cqf st (st + d) ∧
          (∀ i, i < d →
            (pySlice eeg st (st + d)).getD i [] = eeg.getD (st + i) [] ∧
            (pySlice cqf st (st + d)).getD i [] = cqf.getD (st + i) [])) ∧
    (eeg.length < d →
      (sample_eeg prng eeg cqf d pt k ⟨s0, c0⟩).1.1
          = List.replicate k (pad_eeg eeg cqf d pt).1 ∧
      (sample_eeg prng eeg cqf d pt k ⟨s0, c0⟩).1.2
          = List.replicate k (pad_eeg eeg cqf d pt).2 ∧
      (pad_eeg eeg cqf d pt).1.length = (pad_eeg eeg cqf d pt).2.length) ∧
    ((slidingGetItem eeg cqf sF eF d pt).1.length
        = (slidingGetItem eeg cqf sF eF d pt).2.length) ∧
    (pt = .right → eF ≤ eeg.length →
      ∀ i, i < eF - sF →
        (slidingGetItem eeg cqf sF eF d pt).1.getD i [] = eeg.getD (sF + i) [] ∧
        (slidingGetItem eeg cqf sF eF d pt).2.getD i [] = cqf.getD (sF + i) []) ∧
    ((perEegSubsampleWindow eeg cqf offsetSec samplingRate durationSec d pt).1.length
        = (perEegSubsampleWindow eeg cqf offsetSec samplingRate durationSec
            d pt).2.length) := by
  have hpadlen : ∀ x y : List (List ℚ), x.length = y.length →
      (pad_eeg x y d pt).1.length = (pad_eeg x y d pt).2.length := by
    intro x y hxy
    rw [pad_eeg_fst_length x y hd pt, pad_eeg_snd_length x y hd pt, hxy]
  refine ⟨?_, ?_, ?_, ?_, ?_, ?_⟩
  · by_cases hlt : eeg.length < d
    · rw [sample_eeg_pad prng eeg cqf d pt k _ hlt]
      simp
    · rw [sample_eeg_slice prng eeg cqf d pt k s0 c0 hlt]
      simp
  · intro hge j hj
    rw [sample_eeg_slice prng eeg cqf d pt k s0 c0 (by omega)]
    refine ⟨prng s0 (c0 + j) % (eeg.length - d + 1), ?_, ?_, ?_, ?_⟩
    · have := Nat.mod_lt (prng s0 (c0 + j)) (show 0 < eeg.length - d + 1 by omega)
      omega
    · dsimp only
      rw [List.getD_eq_getElem _ _ (by rw [List.length_map, List.length_range]; omega),
        List.getElem_map, List.getElem_range]
    · dsimp only
      rw [List.getD_eq_getElem _ _ (by rw [List.length_map, List.length_range]; omega),
        List.getElem_map, List.getElem_range]
    · intro i hi
      have hst := Nat.mod_lt (prng s0 (c0 + j)) (show 0 < eeg.length - d + 1 by omega)
      constructor
      · exact pySlice_getD eeg _ _ i (by omega)
      · exact pySlice_getD cqf _ _ i (by omega)
  · intro hlt
    rw [sample_eeg_pad prng eeg cqf d pt k _ hlt]
    exact ⟨rfl, rfl, hpadlen eeg cqf hlen.symm⟩
  · exact hpadlen _ _ (by rw [pySlice_length, pySlice_length, hlen])
  · rintro rfl heF i hi
    constructor
    · show (pad_multiple_of (pySlice eeg sF eF) d .right .reflect
          (List.replicate ((pySlice eeg sF eF).headD []).length 0)).getD i [] = _
      rw [pad_multiple_of_right,
        List.getD_append _ _ _ i (by rw [pySlice_length]; omega),
        pySlice_getD eeg _ _ i (by omega)]
    · show (pad_multiple_of (pySlice cqf sF eF) d .right .constant
          (List.replicate ((pySlice cqf sF eF).headD []).length 0)).getD i [] = _
      rw [pad_multiple_of_right,
        List.getD_append _ _ _ i (by rw [pySlice_length]; omega),
        pySlice_getD cqf _ _ i (by omega)]
  · exact hpadlen _ _ (pySliceInt_length_eq _ _ hlen.symm)

theorem signal_mask_coalignment_witness :
    ([[(9 : ℚ)], [8], [7]] : List (List ℚ)).length
      = ([[(1 : ℚ)], [2], [3]] : List (List ℚ)).length ∧
    0 < 2 ∧
    (((sample_eeg (fun a b => a + b) [[(1 : ℚ)], [2], [3]] [[(9 : ℚ)], [8], [7]]
          2 .right 2 ⟨1, 0⟩).1.1.length
        = (sample_eeg (fun a b => a + b) [[(1 : ℚ)], [2], [3]] [[(9 : ℚ)], [8], [7]]
            2 .right 2 ⟨1, 0⟩).1.2.length) ∧
     (2 ≤ ([[(1 : ℚ)], [2], [3]] : List (List ℚ)).length →
       ∀ j, j < 2 →
         ∃ st, st + 2 ≤ ([[(1 : ℚ)], [2], [3]] : List (List ℚ)).length ∧
           (sample_eeg (fun a b => a + b) [[(1 : ℚ)], [2], [3]] [[(9 : ℚ)], [8], [7]]
               2 .right 2 ⟨1, 0⟩).1.1.getD j []
             = pySlice [[(1 : ℚ)], [2], [3]] st (st + 2) ∧
           (sample_eeg (fun a b => a + b) [[(1 : ℚ)], [2], [3]] [[(9 : ℚ)], [8], [7]]
               2 .right 2 ⟨1, 0⟩).1.2.getD j []
             = pySlice [[(9 : ℚ)], [8], [7]] st (st + 2) ∧
           (∀ i, i < 2 →
             (pySlice [[(1 : ℚ)], [2], [3]] st (st + 2)).getD i []
               = ([[(1 : ℚ)], [2], [3]] : List (List ℚ)).getD (st + i) [] ∧
             (pySlice [[(9 : ℚ)], [8], [7]] st (st + 2)).getD i []
               = ([[(9 : ℚ)], [8], [7]] : List (List ℚ)).getD (st + i) [])) ∧
     (([[(1 : ℚ)], [2], [3]] : List (List ℚ)).length < 2 →
       (sample_eeg (fun a b => a + b) [[(1 : ℚ)], [2], [3]] [[(9 : ℚ)], [8], [7]]
           2 .right 2 ⟨1, 0⟩).1.1
           = List.replicate 2
               (pad_eeg [[(1 : ℚ)], [2], [3]] [[(9 : ℚ)], [8], [7]] 2 .right).1 ∧
       (sample_eeg (fun a b => a + b) [[(1 : ℚ)], [2], [3]] [[(9 : ℚ)], [8], [7]]
           2 .right 2 ⟨1, 0⟩).1.2
           = List.replicate 2
               (pad_eeg [[(1 : ℚ)], [2], [3]] [[(9 : ℚ)], [8], [7]] 2 .right).2 ∧
       (pad_eeg [[(1 : ℚ)], [2], [3]] [[(9 : ℚ)], [8], [7]] 2 .right).1.length
           = (pad_eeg [[(1 : ℚ)], [2], [3]] [[(9 : ℚ)], [8], [7]] 2 .right).2.length) ∧
     ((slidingGetItem [[(1 : ℚ)], [2], [3]] [[(9 : ℚ)], [8], [7]] 1 3 2 .right).1.length
        = (slidingGetItem [[(1 : ℚ)], [2], [3]] [[(9 : ℚ)], [8], [7]]
            1 3 2 .right).2.length) ∧
     (PaddingType.right = .right → 3 ≤ ([[(1 : ℚ)], [2], [3]] : List (List ℚ)).length →
       ∀ i, i < 3 - 1 →
         (slidingGetItem [[(1 : ℚ)], [2], [3]] [[(9 : ℚ)], [8], [7]]
             1 3 2 .right).1.getD i []
           = ([[(1 : ℚ)], [2], [3]] : List (List ℚ)).getD (1 + i) [] ∧
         (slidingGetItem [[(1 : ℚ)], [2], [3]] [[(9 : ℚ)], [8], [7]]
             1 3 2 .right).2.getD i []
           = ([[(9 : ℚ)], [8], [7]] : List (List ℚ)).getD (1 + i) []) ∧
     ((perEegSubsampleWindow [[(1 : ℚ)], [2], [3]] [[(9 : ℚ)], [8], [7]]
          1 2 1 2 .right).1.length
        = (perEegSubsampleWindow [[(1 : ℚ)], [2], [3]] [[(9 : ℚ)], [8], [7]]
            1 2 1 2 .right).2.length)) :=
  ⟨by decide, by decide,
   signal_mask_coalignment (fun a b => a + b) [[(1 : ℚ)], [2], [3]]
     [[(9 : ℚ)], [8], [7]] 2 2 1 0 1 3 .right 1 2 1 (by decide) (by decide)⟩

end Hms